import Mathlib

set_option maxRecDepth 10000

/-! Shallow embedding of the Grain-128 stream cipher implementation in
    `src/src/lib.rs`.  Register cells are `Nat` values (the Rust code keeps
    one bit per `u8` cell); byte sequences are `List Nat`.  Rust panics
    (out-of-bounds indexing, `unwrap`) are modelled by `Option`. -/

structure Grain128 where
  LFSR : List Nat
  NFSR : List Nat
  key : List Nat
  keysize : Nat
  ivsize : Nat
deriving DecidableEq

/-- `Grain128::keysetup`.  `key.try_into().unwrap()` panics unless the key
    is exactly 16 bytes; the panic is modelled by `none`.  Both registers
    start zero-filled. -/
def keysetup (key : List Nat) (keysize ivsize : Nat) : Option Grain128 :=
  if key.length = 16 then
    some { key := key, keysize := keysize, ivsize := ivsize,
           LFSR := List.replicate 128 0, NFSR := List.replicate 128 0 }
  else none

/-- `Grain128::keystream`: compute the output bit and both feedback bits
    from the current register contents, shift both registers
    (`for i in 1..keysize { r[i-1] = r[i] }`), write the feedback bits at
    position `keysize - 1`, and return the output bit.  This total-function
    model is faithful to the Rust body for `1 ≤ keysize ≤ 128` with
    128-cell registers (there every access of the loop is in bounds); for
    `keysize = 0` or `keysize > 128` the Rust loop panics
    (`keysize - 1` underflow / `NFSR[128]` out of bounds) while `getD`,
    `List.set` and truncated subtraction silently no-op; the claim
    theorems therefore confine it to the faithful range through
    `keysize`/`Shape` hypotheses or the `ivsetup` guard. -/
def keystream (s : Grain128) : Nat × Grain128 :=
  let N : Nat → Nat := fun i => s.NFSR.getD i 0
  let L : Nat → Nat := fun i => s.LFSR.getD i 0
  let outbit :=
    N 2 ^^^ N 15 ^^^ N 36 ^^^ N 45 ^^^ N 64 ^^^ N 73 ^^^ N 89 ^^^ L 93 ^^^
      (N 12 &&& L 8) ^^^ (L 13 &&& L 20) ^^^ (N 95 &&& L 42) ^^^
      (L 60 &&& L 79) ^^^ (N 12 &&& N 95 &&& L 95)
  let n_bit :=
    L 0 ^^^ N 0 ^^^ N 26 ^^^ N 56 ^^^ N 91 ^^^ N 96 ^^^
      (N 3 &&& N 67) ^^^ (N 11 &&& N 13) ^^^ (N 17 &&& N 18) ^^^
      (N 27 &&& N 59) ^^^ (N 40 &&& N 48) ^^^ (N 61 &&& N 65) ^^^
      (N 68 &&& N 84)
  let l_bit := L 0 ^^^ L 7 ^^^ L 38 ^^^ L 70 ^^^ L 81 ^^^ L 96
  let nf := ((List.range' 1 (s.keysize - 1)).foldl
      (fun r i => r.set (i - 1) (r.getD i 0)) s.NFSR).set (s.keysize - 1) n_bit
  let lf := ((List.range' 1 (s.keysize - 1)).foldl
      (fun r i => r.set (i - 1) (r.getD i 0)) s.LFSR).set (s.keysize - 1) l_bit
  (outbit, { s with NFSR := nf, LFSR := lf })

/-- The inner 8-bit loop shared by `keystream_bytes`, `encrypt_bytes` and
    `decrypt_bytes`: `let mut k = 0; for j in 0..8 { k |= keystream() << j }`. -/
def nextByte (s : Grain128) : Nat × Grain128 :=
  (List.range 8).foldl
    (fun a j => let r := keystream a.2; (a.1 ||| r.1 <<< j, r.2)) (0, s)

/-- `Grain128::keystream_bytes`: fill the caller-supplied buffer, one byte
    per 8 generated bits (`keystream[i] = 0; keystream[i] |= bit << j`). -/
def keystream_bytes (s : Grain128) (ks : List Nat) : List Nat × Grain128 :=
  (List.range ks.length).foldl
    (fun a i => let r := nextByte a.2; (a.1.set i r.1, r.2)) (ks, s)

/-- `Grain128::encrypt_bytes`: `ciphertext[i] = plaintext[i] ^ k` for each
    plaintext byte, `k` being the next keystream byte. -/
def encrypt_bytes (s : Grain128) (plaintext ciphertext : List Nat) :
    List Nat × Grain128 :=
  (List.range plaintext.length).foldl
    (fun a i =>
      let r := nextByte a.2; (a.1.set i (plaintext.getD i 0 ^^^ r.1), r.2))
    (ciphertext, s)

/-- `Grain128::decrypt_bytes`: `plaintext[i] = ciphertext[i] ^ k`. -/
def decrypt_bytes (s : Grain128) (ciphertext plaintext : List Nat) :
    List Nat × Grain128 :=
  (List.range ciphertext.length).foldl
    (fun a i =>
      let r := nextByte a.2; (a.1.set i (ciphertext.getD i 0 ^^^ r.1), r.2))
    (plaintext, s)

/-- The register-loading loops of `Grain128::ivsetup`: key bits into the
    NFSR and IV bits into the LFSR for the first `ivsize/8` bytes, then the
    remaining key bytes into the NFSR with constant-1 LFSR padding. -/
def grainLoad (s : Grain128) (iv : List Nat) : Grain128 :=
  let s1 :=
    (List.range (s.ivsize / 8)).foldl
      (fun t i =>
        (List.range 8).foldl
          (fun u j =>
            { u with
              NFSR := u.NFSR.set (i * 8 + j) ((s.key.getD i 0 >>> j) &&& 1),
              LFSR := u.LFSR.set (i * 8 + j) ((iv.getD i 0 >>> j) &&& 1) }) t) s
  (List.range' (s.ivsize / 8) (s.keysize / 8 - s.ivsize / 8)).foldl
    (fun t i =>
      (List.range 8).foldl
        (fun u j =>
          { u with
            NFSR := u.NFSR.set (i * 8 + j) ((s.key.getD i 0 >>> j) &&& 1),
            LFSR := u.LFSR.set (i * 8 + j) 1 }) t) s1

/-- One warm-up clocking of `Grain128::ivsetup`: a `keystream` step
    followed by `LFSR[127] ^= outbit; NFSR[127] ^= outbit`. -/
def initClock (t : Grain128) : Grain128 :=
  let r := keystream t
  { r.2 with
    LFSR := r.2.LFSR.set 127 (r.2.LFSR.getD 127 0 ^^^ r.1),
    NFSR := r.2.NFSR.set 127 (r.2.NFSR.getD 127 0 ^^^ r.1) }

/-- `Grain128::ivsetup`: load key and IV, then 256 warm-up clockings.  The
    guard is the exact panic-freedom condition of the Rust body: `iv[i]`
    and `key[i]` stay in bounds in both loading loops, every register index
    `i*8+j` stays below 128, and `keysize - 1` neither underflows nor
    exceeds 127 in the clocking loop. -/
def ivsetup (s : Grain128) (iv : List Nat) : Option Grain128 :=
  if s.ivsize / 8 ≤ s.key.length ∧ s.ivsize / 8 ≤ iv.length ∧
      s.ivsize / 8 * 8 ≤ 128 ∧
      (s.keysize / 8 ≤ s.ivsize / 8 ∨
        (s.keysize / 8 ≤ s.key.length ∧ s.keysize / 8 * 8 ≤ 128)) ∧
      1 ≤ s.keysize ∧ s.keysize ≤ 128 then
    some ((List.range 256).foldl (fun t _ => initClock t) (grainLoad s iv))
  else none

/-! ### Specification-side formulas (spec section 4.3, stated over abstract
    tap-read functions `N` and `L`) -/

/-- Spec 4.3 output function, over abstract pre-shift tap reads. -/
def spec_outbit (N L : Nat → Nat) : Nat :=
  N 2 ^^^ N 15 ^^^ N 36 ^^^ N 45 ^^^ N 64 ^^^ N 73 ^^^ N 89 ^^^ L 93 ^^^
    (N 12 &&& L 8) ^^^ (L 13 &&& L 20) ^^^ (N 95 &&& L 42) ^^^
    (L 60 &&& L 79) ^^^ (N 12 &&& N 95 &&& L 95)

/-- Spec 4.3 NFSR feedback function. -/
def spec_nbit (N L : Nat → Nat) : Nat :=
  L 0 ^^^ N 0 ^^^ N 26 ^^^ N 56 ^^^ N 91 ^^^ N 96 ^^^
    (N 3 &&& N 67) ^^^ (N 11 &&& N 13) ^^^ (N 17 &&& N 18) ^^^
    (N 27 &&& N 59) ^^^ (N 40 &&& N 48) ^^^ (N 61 &&& N 65) ^^^
    (N 68 &&& N 84)

/-- Spec 4.3 LFSR feedback function. -/
def spec_lbit (L : Nat → Nat) : Nat :=
  L 0 ^^^ L 7 ^^^ L 38 ^^^ L 70 ^^^ L 81 ^^^ L 96

/-- Pre-shift NFSR tap reads of a state. -/
def tapN (s : Grain128) : Nat → Nat := fun i => s.NFSR.getD i 0

/-- Pre-shift LFSR tap reads of a state. -/
def tapL (s : Grain128) : Nat → Nat := fun i => s.LFSR.getD i 0

/-- Spec 4.2 warm-up round, written from the spec's words: run the Step
    Function once, then XOR the produced output bit into both `NFSR[127]`
    and `LFSR[127]` in place. -/
def specWarmRound (t : Grain128) : Grain128 :=
  let r := keystream t
  { r.2 with
    NFSR := r.2.NFSR.set 127 (r.2.NFSR.getD 127 0 ^^^ r.1),
    LFSR := r.2.LFSR.set 127 (r.2.LFSR.getD 127 0 ^^^ r.1) }

/-! ### Bit-valued cells and basic state invariants -/

/-- A register cell holds a single bit. -/
def IsBit (n : Nat) : Prop := n = 0 ∨ n = 1

instance (n : Nat) : Decidable (IsBit n) := by unfold IsBit; exact inferInstance

/-- Every cell of a register holds a single bit. -/
def BitList (l : List Nat) : Prop := ∀ c ∈ l, IsBit c

instance (l : List Nat) : Decidable (BitList l) := by
  unfold BitList; exact List.decidableBAll _ l

/-- Shape invariant of every state the Rust type system enforces:
    `keysize` is 128 and both register arrays have 128 cells. -/
def Shape (s : Grain128) : Prop :=
  s.keysize = 128 ∧ s.NFSR.length = 128 ∧ s.LFSR.length = 128

instance (s : Grain128) : Decidable (Shape s) := by unfold Shape; exact inferInstance

/-- Both registers are bit-valued. -/
def BitState (s : Grain128) : Prop := BitList s.NFSR ∧ BitList s.LFSR

instance (s : Grain128) : Decidable (BitState s) := by
  unfold BitState; exact inferInstance

/-! ### Fast bit-packed model used to evaluate the cipher inside the
    kernel: each 128-cell register is packed into one `Nat`
    (bit `i` of the number = cell `i`). -/

/-- Pack a bit-valued cell list into one natural number, cell 0 = bit 0. -/
def natOfBits (l : List Nat) : Nat := l.foldr (fun b acc => b + 2 * acc) 0

/-- Read tap `i` of a packed register. -/
def fbit (v i : Nat) : Nat := v >>> i &&& 1

/-- Output function on packed registers (`x = (lfsr, nfsr)`). -/
def fastOut (x : Nat × Nat) : Nat :=
  fbit x.2 2 ^^^ fbit x.2 15 ^^^ fbit x.2 36 ^^^ fbit x.2 45 ^^^
    fbit x.2 64 ^^^ fbit x.2 73 ^^^ fbit x.2 89 ^^^ fbit x.1 93 ^^^
    (fbit x.2 12 &&& fbit x.1 8) ^^^ (fbit x.1 13 &&& fbit x.1 20) ^^^
    (fbit x.2 95 &&& fbit x.1 42) ^^^ (fbit x.1 60 &&& fbit x.1 79) ^^^
    (fbit x.2 12 &&& fbit x.2 95 &&& fbit x.1 95)

/-- NFSR feedback on packed registers. -/
def fastNbit (x : Nat × Nat) : Nat :=
  fbit x.1 0 ^^^ fbit x.2 0 ^^^ fbit x.2 26 ^^^ fbit x.2 56 ^^^
    fbit x.2 91 ^^^ fbit x.2 96 ^^^
    (fbit x.2 3 &&& fbit x.2 67) ^^^ (fbit x.2 11 &&& fbit x.2 13) ^^^
    (fbit x.2 17 &&& fbit x.2 18) ^^^ (fbit x.2 27 &&& fbit x.2 59) ^^^
    (fbit x.2 40 &&& fbit x.2 48) ^^^ (fbit x.2 61 &&& fbit x.2 65) ^^^
    (fbit x.2 68 &&& fbit x.2 84)

/-- LFSR feedback on packed registers. -/
def fastLbit (x : Nat × Nat) : Nat :=
  fbit x.1 0 ^^^ fbit x.1 7 ^^^ fbit x.1 38 ^^^ fbit x.1 70 ^^^
    fbit x.1 81 ^^^ fbit x.1 96

/-- One cipher step on packed registers. -/
def fastStep (x : Nat × Nat) : Nat × (Nat × Nat) :=
  (fastOut x, (x.1 >>> 1 + fastLbit x <<< 127, x.2 >>> 1 + fastNbit x <<< 127))

/-- One warm-up round on packed registers (feedback bit XORed with the
    output bit at position 127). -/
def fastClock (x : Nat × Nat) : Nat × Nat :=
  (x.1 >>> 1 + (fastLbit x ^^^ fastOut x) <<< 127,
   x.2 >>> 1 + (fastNbit x ^^^ fastOut x) <<< 127)

/-- One output byte on packed registers. -/
def fastByte (x : Nat × Nat) : Nat × (Nat × Nat) :=
  (List.range 8).foldl
    (fun a j => let r := fastStep a.2; (a.1 ||| r.1 <<< j, r.2)) (0, x)

/-- `n` output bytes on packed registers. -/
def fastBytes (x : Nat × Nat) : Nat → List Nat
  | 0 => []
  | n + 1 => let r := fastByte x; r.1 :: fastBytes r.2 n

/-! ### Recursion normal forms of the byte-level loops -/

/-- `keystream_bytes` in head-first recursion form. -/
def ksRec (s : Grain128) : Nat → List Nat × Grain128
  | 0 => ([], s)
  | n + 1 =>
    let r := nextByte s
    let t := ksRec r.2 n
    (r.1 :: t.1, t.2)

/-- `encrypt_bytes`/`decrypt_bytes` in head-first recursion form. -/
def encRec (s : Grain128) : List Nat → List Nat × Grain128
  | [] => ([], s)
  | b :: rest =>
    let r := nextByte s
    let t := encRec r.2 rest
    ((b ^^^ r.1) :: t.1, t.2)

/-- Output bits of `m` successive `keystream` calls. -/
def streamOut (s : Grain128) : Nat → List Nat
  | 0 => []
  | m + 1 => (keystream s).1 :: streamOut (keystream s).2 m

/-- State after `m` successive `keystream` calls. -/
def streamState (s : Grain128) : Nat → Grain128
  | 0 => s
  | m + 1 => streamState (keystream s).2 m

/-- Fold writing `w p` at each position `p` of `ps`. -/
def setW (w : Nat → Nat) (l : List Nat) (ps : List Nat) : List Nat :=
  ps.foldl (fun a p => a.set p (w p)) l

/-! ### Bounds-checked variants: the same code with every slice read and
    write carrying the Rust bounds check (an out-of-bounds access, i.e. a
    Rust panic, yields `none`). -/

/-- Checked slice write (`l[i] = v` panics unless `i < l.len()`). -/
def setP (l : List Nat) (i v : Nat) : Option (List Nat) :=
  if i < l.length then some (l.set i v) else none

/-- Monadic bind on `Option`, kept as a plain function so long chains of
    checked accesses stay linear-size. -/
def obind {a b : Type} (x : Option a) (f : a → Option b) : Option b :=
  x.bind f

/-- `Grain128::keystream` with every register access bounds-checked. -/
def keystreamP (s : Grain128) : Option (Nat × Grain128) :=
  obind s.NFSR[2]? fun n2 =>
  obind s.NFSR[15]? fun n15 =>
  obind s.NFSR[36]? fun n36 =>
  obind s.NFSR[45]? fun n45 =>
  obind s.NFSR[64]? fun n64 =>
  obind s.NFSR[73]? fun n73 =>
  obind s.NFSR[89]? fun n89 =>
  obind s.LFSR[93]? fun l93 =>
  obind s.NFSR[12]? fun n12 =>
  obind s.LFSR[8]? fun l8 =>
  obind s.LFSR[13]? fun l13 =>
  obind s.LFSR[20]? fun l20 =>
  obind s.NFSR[95]? fun n95 =>
  obind s.LFSR[42]? fun l42 =>
  obind s.LFSR[60]? fun l60 =>
  obind s.LFSR[79]? fun l79 =>
  obind s.LFSR[95]? fun l95 =>
  let outbit := n2 ^^^ n15 ^^^ n36 ^^^ n45 ^^^ n64 ^^^ n73 ^^^ n89 ^^^ l93 ^^^
    (n12 &&& l8) ^^^ (l13 &&& l20) ^^^ (n95 &&& l42) ^^^ (l60 &&& l79) ^^^
    (n12 &&& n95 &&& l95)
  obind s.LFSR[0]? fun l0 =>
  obind s.NFSR[0]? fun n0 =>
  obind s.NFSR[26]? fun n26 =>
  obind s.NFSR[56]? fun n56 =>
  obind s.NFSR[91]? fun n91 =>
  obind s.NFSR[96]? fun n96 =>
  obind s.NFSR[3]? fun n3 =>
  obind s.NFSR[67]? fun n67 =>
  obind s.NFSR[11]? fun n11 =>
  obind s.NFSR[13]? fun n13 =>
  obind s.NFSR[17]? fun n17 =>
  obind s.NFSR[18]? fun n18 =>
  obind s.NFSR[27]? fun n27 =>
  obind s.NFSR[59]? fun n59 =>
  obind s.NFSR[40]? fun n40 =>
  obind s.NFSR[48]? fun n48 =>
  obind s.NFSR[61]? fun n61 =>
  obind s.NFSR[65]? fun n65 =>
  obind s.NFSR[68]? fun n68 =>
  obind s.NFSR[84]? fun n84 =>
  let n_bit := l0 ^^^ n0 ^^^ n26 ^^^ n56 ^^^ n91 ^^^ n96 ^^^
    (n3 &&& n67) ^^^ (n11 &&& n13) ^^^ (n17 &&& n18) ^^^ (n27 &&& n59) ^^^
    (n40 &&& n48) ^^^ (n61 &&& n65) ^^^ (n68 &&& n84)
  obind s.LFSR[7]? fun l7 =>
  obind s.LFSR[38]? fun l38 =>
  obind s.LFSR[70]? fun l70 =>
  obind s.LFSR[81]? fun l81 =>
  obind s.LFSR[96]? fun l96 =>
  let l_bit := l0 ^^^ l7 ^^^ l38 ^^^ l70 ^^^ l81 ^^^ l96
  obind ((List.range' 1 (s.keysize - 1)).foldlM
    (fun r i => obind r[i]? fun v => setP r (i - 1) v) s.NFSR) fun nf0 =>
  obind ((List.range' 1 (s.keysize - 1)).foldlM
    (fun r i => obind r[i]? fun v => setP r (i - 1) v) s.LFSR) fun lf0 =>
  obind (setP nf0 (s.keysize - 1) n_bit) fun nf =>
  obind (setP lf0 (s.keysize - 1) l_bit) fun lf =>
  some (outbit, { s with NFSR := nf, LFSR := lf })

/-- The checked inner 8-bit loop. -/
def nextByteP (s : Grain128) : Option (Nat × Grain128) :=
  (List.range 8).foldlM
    (fun a j =>
      obind (keystreamP a.2) fun r =>
      some (a.1 ||| r.1 <<< j, r.2)) ((0 : Nat), s)

/-- `Grain128::keystream_bytes` with checked buffer and register accesses. -/
def keystream_bytesP (s : Grain128) (ks : List Nat) :
    Option (List Nat × Grain128) :=
  (List.range ks.length).foldlM
    (fun a i =>
      obind (nextByteP a.2) fun r =>
      obind (setP a.1 i r.1) fun b =>
      some (b, r.2)) (ks, s)

/-- `Grain128::encrypt_bytes` with checked buffer and register accesses. -/
def encrypt_bytesP (s : Grain128) (plaintext ciphertext : List Nat) :
    Option (List Nat × Grain128) :=
  (List.range plaintext.length).foldlM
    (fun a i =>
      obind (nextByteP a.2) fun r =>
      obind plaintext[i]? fun pi =>
      obind (setP a.1 i (pi ^^^ r.1)) fun b =>
      some (b, r.2)) (ciphertext, s)

/-- `Grain128::decrypt_bytes` with checked buffer and register accesses. -/
def decrypt_bytesP (s : Grain128) (ciphertext plaintext : List Nat) :
    Option (List Nat × Grain128) :=
  (List.range ciphertext.length).foldlM
    (fun a i =>
      obind (nextByteP a.2) fun r =>
      obind ciphertext[i]? fun ci =>
      obind (setP a.1 i (ci ^^^ r.1)) fun b =>
      some (b, r.2)) (plaintext, s)

/-- States reachable through the public API: construction, initialization,
    and any number of keystream/encrypt/decrypt calls. -/
inductive Reachable : Grain128 → Prop
  | setup (key : List Nat) (ks ivs : Nat) (s : Grain128)
      (h : keysetup key ks ivs = some s) : Reachable s
  | init (s : Grain128) (iv : List Nat) (t : Grain128)
      (hs : Reachable s) (h : ivsetup s iv = some t) : Reachable t
  | ks (s : Grain128) (buf : List Nat) (hs : Reachable s) :
      Reachable (keystream_bytes s buf).2
  | enc (s : Grain128) (p c : List Nat) (hs : Reachable s) :
      Reachable (encrypt_bytes s p c).2
  | dec (s : Grain128) (c p : List Nat) (hs : Reachable s) :
      Reachable (decrypt_bytes s c p).2

/-- The all-zero 16-byte key. -/
def zeroKey : List Nat := List.replicate 16 0

/-- The all-zero 12-byte IV. -/
def zeroIV : List Nat := List.replicate 12 0

/-- The state produced by `keysetup` from the all-zero key with
    `keysize = 128`, `ivsize = 96`. -/
def zeroState : Grain128 :=
  { key := zeroKey, keysize := 128, ivsize := 96,
    LFSR := List.replicate 128 0, NFSR := List.replicate 128 0 }

/-- The register positions written by the loading loops for byte indices
    `a ≤ i < a + n`: positions `i*8 + j`, `j < 8`. -/
def loadPos (a n : Nat) : List Nat :=
  (List.range' a n).flatMap (fun i => (List.range 8).map (fun j => i * 8 + j))

/-- Bit `p % 8` of byte `p / 8` of a byte string (the little-endian-within-
    byte loading rule). -/
def byteBit (bs : List Nat) (p : Nat) : Nat :=
  (bs.getD (p / 8) 0 >>> (p % 8)) &&& 1

/-- Simulation relation between a cipher state and a pair of packed
    registers `(lfsr, nfsr)`. -/
def SimR (s : Grain128) (x : Nat × Nat) : Prop :=
  Shape s ∧ BitState s ∧ natOfBits s.LFSR = x.1 ∧ natOfBits s.NFSR = x.2

/-! ## Generic fold lemmas -/

theorem foldl_rel {α β γ : Type _} (R : α → β → Prop)
    (f : α → γ → α) (g : β → γ → β) :
    ∀ ix : List γ, (∀ a b i, i ∈ ix → R a b → R (f a i) (g b i)) →
      ∀ a b, R a b → R (ix.foldl f a) (ix.foldl g b) := by
  intro ix
  induction ix with
  | nil => intro _ a b hab; simpa using hab
  | cons i tl IH =>
      intro h a b hab
      simp only [List.foldl_cons]
      exact IH (fun a b j hj hr => h a b j (List.mem_cons_of_mem _ hj) hr) _ _
        (h a b i (List.mem_cons_self _ _) hab)

theorem foldl_inv {α β : Type _} (Inv : α → Prop) (f : α → β → α) :
    ∀ ix : List β, (∀ a i, i ∈ ix → Inv a → Inv (f a i)) →
      ∀ a, Inv a → Inv (ix.foldl f a) := by
  intro ix
  induction ix with
  | nil => intro _ a ha; simpa using ha
  | cons i tl IH =>
      intro h a ha
      simp only [List.foldl_cons]
      exact IH (fun a j hj hr => h a j (List.mem_cons_of_mem _ hj) hr) _
        (h a i (List.mem_cons_self _ _) ha)

theorem foldlM_eq_foldl {α β : Type _} (Inv : α → Prop)
    (g : α → β → Option α) (f : α → β → α) :
    ∀ ix : List β, (∀ a i, i ∈ ix → Inv a → g a i = some (f a i) ∧ Inv (f a i)) →
      ∀ a, Inv a → ix.foldlM g a = some (ix.foldl f a) ∧ Inv (ix.foldl f a) := by
  intro ix
  induction ix with
  | nil => intro _ a ha; exact ⟨rfl, ha⟩
  | cons i tl IH =>
      intro h a ha
      obtain ⟨hg, hInv⟩ := h a i (List.mem_cons_self _ _) ha
      have IH2 := IH (fun a j hj ha => h a j (List.mem_cons_of_mem _ hj) ha)
        (f a i) hInv
      simp only [List.foldlM_cons, hg, List.foldl_cons]
      simpa using IH2

/-! ## Characterization of the shift loop -/

theorem shift_foldl (r : List Nat) :
    ∀ k, k < r.length →
      (List.range' 1 k).foldl (fun a i => a.set (i - 1) (a.getD i 0)) r
        = (r.drop 1).take k ++ r.drop k := by
  intro k
  induction k with
  | zero => simp
  | succ k IH =>
      intro h
      have hk : k < r.length := Nat.lt_of_succ_lt h
      have hrange : List.range' 1 (k + 1) = List.range' 1 k ++ [1 + 1 * k] :=
        List.range'_concat 1 k
      have hpre : ((r.drop 1).take k).length = k := by
        simp only [List.length_take, List.length_drop]
        omega
      rw [hrange, List.foldl_append, IH hk]
      simp only [List.foldl_cons, List.foldl_nil]
      have hidx : 1 + 1 * k - 1 = k := by omega
      have hget : (((r.drop 1).take k) ++ r.drop k).getD (1 + 1 * k) 0
          = r.getD (k + 1) 0 := by
        rw [List.getD_eq_getElem?_getD,
          List.getElem?_append_right (by rw [hpre]; omega), hpre]
        have h1 : 1 + 1 * k - k = 1 := by omega
        rw [h1, List.getElem?_drop, List.getD_eq_getElem?_getD]
      rw [hidx, hget, List.set_append]
      have hnotlt : ¬ k < ((r.drop 1).take k).length := by rw [hpre]; omega
      rw [if_neg hnotlt, hpre, Nat.sub_self]
      have hdropk : r.drop k = r.getD k 0 :: r.drop (k + 1) := by
        rw [List.drop_eq_getElem_cons hk, List.getD_eq_getElem _ _ hk]
      rw [hdropk]
      simp only [List.set_cons_zero]
      have htake : (r.drop 1).take (k + 1)
          = (r.drop 1).take k ++ [r.getD (k + 1) 0] := by
        rw [List.take_succ]
        congr 1
        rw [List.getElem?_drop]
        have h2 : (1 : Nat) + k = k + 1 := by omega
        rw [h2, List.getElem?_eq_getElem (by omega),
          List.getD_eq_getElem _ _ (by omega : k + 1 < r.length)]
        rfl
      rw [htake, List.append_assoc]
      rfl

/-! ## Bit-valuedness -/

theorem IsBit.xor {a b : Nat} (ha : IsBit a) (hb : IsBit b) : IsBit (a ^^^ b) := by
  rcases ha with rfl | rfl <;> rcases hb with rfl | rfl <;> decide

theorem IsBit.and {a b : Nat} (ha : IsBit a) (hb : IsBit b) : IsBit (a &&& b) := by
  rcases ha with rfl | rfl <;> rcases hb with rfl | rfl <;> decide

theorem IsBit.getD {l : List Nat} (hl : BitList l) (i : Nat) :
    IsBit (l.getD i 0) := by
  by_cases h : i < l.length
  · rw [List.getD_eq_getElem _ _ h]
    exact hl _ (List.getElem_mem h)
  · rw [List.getD_eq_getElem?_getD, List.getElem?_eq_none (by omega)]
    exact Or.inl rfl

theorem IsBit.extract (x j : Nat) : IsBit ((x >>> j) &&& 1) := by
  rw [Nat.and_one_is_mod]
  rcases Nat.mod_two_eq_zero_or_one (x >>> j) with h | h
  · exact Or.inl h
  · exact Or.inr h

theorem BitList.set {l : List Nat} (hl : BitList l) {v : Nat} (hv : IsBit v)
    (i : Nat) : BitList (l.set i v) := by
  intro c hc
  rcases List.mem_or_eq_of_mem_set hc with h | rfl
  · exact hl _ h
  · exact hv

theorem BitList.tail {l : List Nat} (hl : BitList l) : BitList l.tail := by
  intro c hc
  exact hl _ (List.mem_of_mem_tail hc)

theorem BitList.concat {l : List Nat} (hl : BitList l) {v : Nat} (hv : IsBit v) :
    BitList (l ++ [v]) := by
  intro c hc
  rcases List.mem_append.1 hc with h | h
  · exact hl _ h
  · rcases List.mem_singleton.1 h with rfl
    exact hv

theorem spec_outbit_isBit (s : Grain128) (hs : BitState s) :
    IsBit (spec_outbit (tapN s) (tapL s)) := by
  obtain ⟨hN, hL⟩ := hs
  unfold spec_outbit tapN tapL
  exact ((((((((((((IsBit.getD hN 2).xor (IsBit.getD hN 15)).xor
    (IsBit.getD hN 36)).xor (IsBit.getD hN 45)).xor (IsBit.getD hN 64)).xor
    (IsBit.getD hN 73)).xor (IsBit.getD hN 89)).xor (IsBit.getD hL 93)).xor
    ((IsBit.getD hN 12).and (IsBit.getD hL 8))).xor
    ((IsBit.getD hL 13).and (IsBit.getD hL 20))).xor
    ((IsBit.getD hN 95).and (IsBit.getD hL 42))).xor
    ((IsBit.getD hL 60).and (IsBit.getD hL 79))).xor
    (((IsBit.getD hN 12).and (IsBit.getD hN 95)).and (IsBit.getD hL 95))

theorem spec_nbit_isBit (s : Grain128) (hs : BitState s) :
    IsBit (spec_nbit (tapN s) (tapL s)) := by
  obtain ⟨hN, hL⟩ := hs
  unfold spec_nbit tapN tapL
  exact ((((((((((((IsBit.getD hL 0).xor (IsBit.getD hN 0)).xor
    (IsBit.getD hN 26)).xor (IsBit.getD hN 56)).xor (IsBit.getD hN 91)).xor
    (IsBit.getD hN 96)).xor ((IsBit.getD hN 3).and (IsBit.getD hN 67))).xor
    ((IsBit.getD hN 11).and (IsBit.getD hN 13))).xor
    ((IsBit.getD hN 17).and (IsBit.getD hN 18))).xor
    ((IsBit.getD hN 27).and (IsBit.getD hN 59))).xor
    ((IsBit.getD hN 40).and (IsBit.getD hN 48))).xor
    ((IsBit.getD hN 61).and (IsBit.getD hN 65))).xor
    ((IsBit.getD hN 68).and (IsBit.getD hN 84))

theorem spec_lbit_isBit (s : Grain128) (hs : BitState s) :
    IsBit (spec_lbit (tapL s)) := by
  obtain ⟨_, hL⟩ := hs
  unfold spec_lbit tapL
  exact (((((IsBit.getD hL 0).xor (IsBit.getD hL 7)).xor
    (IsBit.getD hL 38)).xor (IsBit.getD hL 70)).xor (IsBit.getD hL 81)).xor
    (IsBit.getD hL 96)

/-! ## Characterization of one `keystream` step -/

theorem keystream_fst (s : Grain128) :
    (keystream s).1 = spec_outbit (tapN s) (tapL s) := rfl

theorem keystream_NFSR_def (s : Grain128) :
    (keystream s).2.NFSR
      = ((List.range' 1 (s.keysize - 1)).foldl
          (fun r i => r.set (i - 1) (r.getD i 0)) s.NFSR).set
          (s.keysize - 1) (spec_nbit (tapN s) (tapL s)) := rfl

theorem keystream_LFSR_def (s : Grain128) :
    (keystream s).2.LFSR
      = ((List.range' 1 (s.keysize - 1)).foldl
          (fun r i => r.set (i - 1) (r.getD i 0)) s.LFSR).set
          (s.keysize - 1) (spec_lbit (tapL s)) := rfl

theorem keystream_key (s : Grain128) : (keystream s).2.key = s.key := rfl

theorem keystream_keysize (s : Grain128) :
    (keystream s).2.keysize = s.keysize := rfl

theorem keystream_ivsize (s : Grain128) :
    (keystream s).2.ivsize = s.ivsize := rfl

theorem shift_set_eq (r : List Nat) (h : r.length = 128) (v : Nat) :
    ((List.range' 1 127).foldl (fun a i => a.set (i - 1) (a.getD i 0)) r).set
        127 v = r.tail ++ [v] := by
  rw [shift_foldl r 127 (by omega)]
  have h1 : (r.drop 1).take 127 = r.drop 1 :=
    List.take_of_length_le (by simp [h])
  rw [h1, List.set_append]
  have h2 : ¬ (127 : Nat) < (r.drop 1).length := by simp [h]
  rw [if_neg h2]
  have h3 : (r.drop 1).length = 127 := by simp [h]
  rw [h3]
  have h4 : r.drop 127 = [r.getD 127 0] := by
    rw [List.drop_eq_getElem_cons (show 127 < r.length by omega),
      List.getD_eq_getElem _ _ (show 127 < r.length by omega)]
    congr 1
    exact List.drop_eq_nil_of_le (by omega)
  rw [h4]
  simp [List.drop_one]

theorem keystream_NFSR (s : Grain128) (hs : Shape s) :
    (keystream s).2.NFSR = s.NFSR.tail ++ [spec_nbit (tapN s) (tapL s)] := by
  obtain ⟨hk, hN, _⟩ := hs
  rw [keystream_NFSR_def, hk]
  exact shift_set_eq s.NFSR hN _

theorem keystream_LFSR (s : Grain128) (hs : Shape s) :
    (keystream s).2.LFSR = s.LFSR.tail ++ [spec_lbit (tapL s)] := by
  obtain ⟨hk, _, hL⟩ := hs
  rw [keystream_LFSR_def, hk]
  exact shift_set_eq s.LFSR hL _

theorem foldl_set_length (ix : List Nat) (r : List Nat) :
    (ix.foldl (fun a i => a.set (i - 1) (a.getD i 0)) r).length = r.length :=
  foldl_inv (fun l => l.length = r.length) _ ix
    (fun a i _ ha => by
      show (a.set (i - 1) (a.getD i 0)).length = r.length
      rw [List.length_set]; exact ha) r rfl

theorem keystream_NFSR_length (s : Grain128) :
    (keystream s).2.NFSR.length = s.NFSR.length := by
  rw [keystream_NFSR_def, List.length_set, foldl_set_length]

theorem keystream_LFSR_length (s : Grain128) :
    (keystream s).2.LFSR.length = s.LFSR.length := by
  rw [keystream_LFSR_def, List.length_set, foldl_set_length]

theorem keystream_Shape (s : Grain128) (hs : Shape s) :
    Shape (keystream s).2 := by
  obtain ⟨hk, hN, hL⟩ := hs
  refine ⟨hk, ?_, ?_⟩
  · rw [keystream_NFSR_length]; exact hN
  · rw [keystream_LFSR_length]; exact hL

theorem foldl_set_BitList (ix : List Nat) (r : List Nat) (hr : BitList r) :
    BitList (ix.foldl (fun a i => a.set (i - 1) (a.getD i 0)) r) :=
  foldl_inv BitList _ ix
    (fun a i _ ha => ha.set (IsBit.getD ha i) _) r hr

theorem keystream_BitState (s : Grain128) (hb : BitState s) :
    BitState (keystream s).2 := by
  constructor
  · rw [keystream_NFSR_def]
    exact (foldl_set_BitList _ _ hb.1).set (spec_nbit_isBit s hb) _
  · rw [keystream_LFSR_def]
    exact (foldl_set_BitList _ _ hb.2).set (spec_lbit_isBit s hb) _

/-! ## Packed-register encoding -/

theorem natOfBits_cons (b : Nat) (l : List Nat) :
    natOfBits (b :: l) = b + 2 * natOfBits l := rfl

theorem fbit_natOfBits {l : List Nat} (hl : BitList l) :
    ∀ i, fbit (natOfBits l) i = l.getD i 0 := by
  induction l with
  | nil =>
      intro i
      show (0 : Nat) >>> i &&& 1 = ([] : List Nat).getD i 0
      simp
  | cons b l IH =>
      intro i
      have hb : IsBit b := hl _ (List.mem_cons_self _ _)
      have hl2 : BitList l := fun c hc => hl _ (List.mem_cons_of_mem _ hc)
      have hb2 : b < 2 := by rcases hb with rfl | rfl <;> omega
      cases i with
      | zero =>
          show (b + 2 * natOfBits l) >>> 0 &&& 1 = b
          rw [Nat.shiftRight_zero, Nat.and_one_is_mod,
            Nat.add_mul_mod_self_left]
          omega
      | succ i =>
          show (b + 2 * natOfBits l) >>> (i + 1) &&& 1 = l.getD i 0
          have hdiv : (b + 2 * natOfBits l) >>> (i + 1) = natOfBits l >>> i := by
            rw [Nat.shiftRight_eq_div_pow, Nat.shiftRight_eq_div_pow]
            rw [Nat.pow_succ']
            rw [← Nat.div_div_eq_div_mul]
            rw [Nat.add_mul_div_left _ _ (by omega : (0:Nat) < 2)]
            rw [Nat.div_eq_of_lt hb2, Nat.zero_add]
          rw [hdiv]
          exact IH hl2 i

theorem natOfBits_concat (l : List Nat) (v : Nat) :
    natOfBits (l ++ [v]) = natOfBits l + v * 2 ^ l.length := by
  induction l with
  | nil =>
      show natOfBits [v] = 0 + v * 1
      show v + 2 * 0 = 0 + v * 1
      omega
  | cons b l IH =>
      show natOfBits (b :: (l ++ [v])) = natOfBits (b :: l) + v * 2 ^ (b :: l).length
      rw [natOfBits_cons, natOfBits_cons, IH, List.length_cons, Nat.pow_succ]
      ring

theorem natOfBits_shiftRight_one {l : List Nat} (hl : BitList l) :
    natOfBits l >>> 1 = natOfBits l.tail := by
  cases l with
  | nil => rfl
  | cons b l =>
      have hb : b < 2 := by
        rcases hl _ (List.mem_cons_self _ _) with rfl | rfl <;> omega
      show (b + 2 * natOfBits l) >>> 1 = natOfBits l
      rw [Nat.shiftRight_eq_div_pow, Nat.pow_one,
        Nat.add_mul_div_left _ _ (by omega : (0:Nat) < 2),
        Nat.div_eq_of_lt hb, Nat.zero_add]

theorem natOfBits_step {l : List Nat} (hl : BitList l) (h : l.length = 128)
    (v : Nat) :
    natOfBits (l.tail ++ [v]) = natOfBits l >>> 1 + v <<< 127 := by
  rw [natOfBits_concat, natOfBits_shiftRight_one hl, Nat.shiftLeft_eq]
  congr 2
  rw [List.length_tail, h]

/-! ## Step simulation between list states and packed states -/

theorem tapN_eq {s : Grain128} {x : Nat × Nat} (h : SimR s x) :
    tapN s = fbit x.2 := by
  funext i
  obtain ⟨_, hb, _, hN⟩ := h
  show s.NFSR.getD i 0 = fbit x.2 i
  rw [← hN]
  exact (fbit_natOfBits hb.1 i).symm

theorem tapL_eq {s : Grain128} {x : Nat × Nat} (h : SimR s x) :
    tapL s = fbit x.1 := by
  funext i
  obtain ⟨_, hb, hL, _⟩ := h
  show s.LFSR.getD i 0 = fbit x.1 i
  rw [← hL]
  exact (fbit_natOfBits hb.2 i).symm

theorem keystream_sim {s : Grain128} {x : Nat × Nat} (h : SimR s x) :
    (keystream s).1 = (fastStep x).1 ∧ SimR (keystream s).2 (fastStep x).2 := by
  obtain ⟨hs, hb, hL, hN⟩ := h
  have htN : tapN s = fbit x.2 := tapN_eq ⟨hs, hb, hL, hN⟩
  have htL : tapL s = fbit x.1 := tapL_eq ⟨hs, hb, hL, hN⟩
  have hout : (keystream s).1 = (fastStep x).1 := by
    rw [keystream_fst, htN, htL]; rfl
  refine ⟨hout, keystream_Shape s hs, keystream_BitState s hb, ?_, ?_⟩
  · rw [keystream_LFSR s hs, natOfBits_step hb.2 hs.2.2, hL, htL]
    rfl
  · rw [keystream_NFSR s hs, natOfBits_step hb.1 hs.2.1, hN, htN, htL]
    rfl

theorem set_last_concat (l : List Nat) (h : l.length = 127) (b v : Nat) :
    (l ++ [b]).set 127 v = l ++ [v] := by
  rw [List.set_append, if_neg (by omega), h, Nat.sub_self]
  rfl

theorem getD_last_concat (l : List Nat) (h : l.length = 127) (b : Nat) :
    (l ++ [b]).getD 127 0 = b := by
  rw [List.getD_eq_getElem?_getD, List.getElem?_append_right (by omega), h,
    Nat.sub_self]
  rfl

theorem initClock_NFSR (s : Grain128) (hs : Shape s) :
    (initClock s).NFSR = s.NFSR.tail ++
      [spec_nbit (tapN s) (tapL s) ^^^ spec_outbit (tapN s) (tapL s)] := by
  have hlen : s.NFSR.tail.length = 127 := by
    rw [List.length_tail, hs.2.1]
  show ((keystream s).2.NFSR).set 127
      ((keystream s).2.NFSR.getD 127 0 ^^^ (keystream s).1) = _
  rw [keystream_NFSR s hs, keystream_fst, getD_last_concat _ hlen,
    set_last_concat _ hlen]

theorem initClock_LFSR (s : Grain128) (hs : Shape s) :
    (initClock s).LFSR = s.LFSR.tail ++
      [spec_lbit (tapL s) ^^^ spec_outbit (tapN s) (tapL s)] := by
  have hlen : s.LFSR.tail.length = 127 := by
    rw [List.length_tail, hs.2.2]
  show ((keystream s).2.LFSR).set 127
      ((keystream s).2.LFSR.getD 127 0 ^^^ (keystream s).1) = _
  rw [keystream_LFSR s hs, keystream_fst, getD_last_concat _ hlen,
    set_last_concat _ hlen]

theorem initClock_key (s : Grain128) : (initClock s).key = s.key := rfl

theorem initClock_keysize (s : Grain128) :
    (initClock s).keysize = s.keysize := rfl

theorem initClock_ivsize (s : Grain128) :
    (initClock s).ivsize = s.ivsize := rfl

theorem initClock_sim {s : Grain128} {x : Nat × Nat} (h : SimR s x) :
    SimR (initClock s) (fastClock x) := by
  obtain ⟨hs, hb, hL, hN⟩ := h
  have htN : tapN s = fbit x.2 := tapN_eq ⟨hs, hb, hL, hN⟩
  have htL : tapL s = fbit x.1 := tapL_eq ⟨hs, hb, hL, hN⟩
  have hNch := initClock_NFSR s hs
  have hLch := initClock_LFSR s hs
  have hbit : BitState (initClock s) := by
    constructor
    · rw [hNch]
      exact (BitList.tail hb.1).concat
        ((spec_nbit_isBit s hb).xor (spec_outbit_isBit s hb))
    · rw [hLch]
      exact (BitList.tail hb.2).concat
        ((spec_lbit_isBit s hb).xor (spec_outbit_isBit s hb))
  have hshape : Shape (initClock s) := by
    refine ⟨hs.1, ?_, ?_⟩
    · rw [hNch, List.length_append, List.length_tail, hs.2.1]; rfl
    · rw [hLch, List.length_append, List.length_tail, hs.2.2]; rfl
  refine ⟨hshape, hbit, ?_, ?_⟩
  · rw [hLch, natOfBits_step hb.2 hs.2.2, hL, htL, htN]
    rfl
  · rw [hNch, natOfBits_step hb.1 hs.2.1, hN, htN, htL]
    rfl

theorem warm_sim {s : Grain128} {x : Nat × Nat} (h : SimR s x) :
    SimR ((List.range 256).foldl (fun t _ => initClock t) s)
      ((List.range 256).foldl (fun y _ => fastClock y) x) :=
  foldl_rel SimR _ _ (List.range 256)
    (fun a b _ _ hr => initClock_sim hr) s x h

theorem nextByte_sim {s : Grain128} {x : Nat × Nat} (h : SimR s x) :
    (nextByte s).1 = (fastByte x).1 ∧ SimR (nextByte s).2 (fastByte x).2 := by
  have main := foldl_rel
    (fun (a : Nat × Grain128) (b : Nat × (Nat × Nat)) => a.1 = b.1 ∧ SimR a.2 b.2)
    (fun a j => let r := keystream a.2; (a.1 ||| r.1 <<< j, r.2))
    (fun a j => let r := fastStep a.2; (a.1 ||| r.1 <<< j, r.2))
    (List.range 8)
    (fun a b j _ hr => by
      obtain ⟨h1, h2⟩ := hr
      obtain ⟨hk1, hk2⟩ := keystream_sim h2
      refine ⟨?_, hk2⟩
      show a.1 ||| (keystream a.2).1 <<< j = b.1 ||| (fastStep b.2).1 <<< j
      rw [h1, hk1])
    (0, s) (0, x) ⟨rfl, h⟩
  exact main

theorem fastBytes_succ (x : Nat × Nat) (n : Nat) :
    fastBytes x (n + 1) = (fastByte x).1 :: fastBytes (fastByte x).2 n := rfl

theorem ksRec_sim : ∀ (n : Nat) {s : Grain128} {x : Nat × Nat}, SimR s x →
    (ksRec s n).1 = fastBytes x n := by
  intro n
  induction n with
  | zero => intro s x _; rfl
  | succ n IH =>
      intro s x h
      obtain ⟨h1, h2⟩ := nextByte_sim h
      show (nextByte s).1 :: (ksRec (nextByte s).2 n).1 = _
      rw [fastBytes_succ, h1, IH h2]

/-! ## Byte loops in recursion normal form -/

theorem take_succ_set (a : List Nat) (k : Nat) (hk : k < a.length) (b : Nat) :
    (a.set k b).take (k + 1) = a.take k ++ [b] := by
  have hlen : (a.take k).length = k := by
    rw [List.length_take]; omega
  rw [List.set_take, List.take_succ, List.getElem?_eq_getElem hk]
  show (a.take k ++ [a[k]]).set k b = a.take k ++ [b]
  rw [List.set_append, if_neg (by rw [hlen]; omega), hlen, Nat.sub_self]
  rfl

theorem ks_fold_eq :
    ∀ (m k : Nat) (a : List Nat) (s : Grain128), k + m = a.length →
      (List.range' k m).foldl
          (fun p i => let r := nextByte p.2; (p.1.set i r.1, r.2)) (a, s)
        = (a.take k ++ (ksRec s m).1, (ksRec s m).2) := by
  intro m
  induction m with
  | zero =>
      intro k a s h
      show (a, s) = (a.take k ++ [], s)
      rw [List.append_nil, List.take_of_length_le (by omega)]
  | succ m IH =>
      intro k a s h
      rw [List.range'_succ]
      simp only [List.foldl_cons]
      have hk : k < a.length := by omega
      have hstep := IH (k + 1) (a.set k (nextByte s).1) (nextByte s).2
        (by rw [List.length_set]; omega)
      show (List.range' (k + 1) m).foldl
          (fun p i => let r := nextByte p.2; (p.1.set i r.1, r.2))
          (a.set k (nextByte s).1, (nextByte s).2) = _
      rw [hstep, take_succ_set a k hk]
      show (a.take k ++ [(nextByte s).1] ++ (ksRec (nextByte s).2 m).1,
          (ksRec (nextByte s).2 m).2)
        = (a.take k ++ ((nextByte s).1 :: (ksRec (nextByte s).2 m).1),
          (ksRec (nextByte s).2 m).2)
      rw [List.append_assoc]
      rfl

theorem keystream_bytes_eq (s : Grain128) (ks : List Nat) :
    keystream_bytes s ks = ksRec s ks.length := by
  show (List.range ks.length).foldl
      (fun p i => let r := nextByte p.2; (p.1.set i r.1, r.2)) (ks, s) = _
  rw [List.range_eq_range', ks_fold_eq ks.length 0 ks s (by omega)]
  show (ks.take 0 ++ (ksRec s ks.length).1, (ksRec s ks.length).2) = _
  rw [List.take_zero, List.nil_append]

theorem enc_fold_eq (p : List Nat) :
    ∀ (m k : Nat) (a : List Nat) (s : Grain128), k + m = p.length →
      a.length = p.length →
      (List.range' k m).foldl
          (fun q i =>
            let r := nextByte q.2; (q.1.set i (p.getD i 0 ^^^ r.1), r.2)) (a, s)
        = (a.take k ++ (encRec s (p.drop k)).1, (encRec s (p.drop k)).2) := by
  intro m
  induction m with
  | zero =>
      intro k a s h ha
      have hdrop : p.drop k = [] := List.drop_eq_nil_of_le (by omega)
      rw [hdrop]
      show (a, s) = (a.take k ++ [], s)
      rw [List.append_nil, List.take_of_length_le (by omega)]
  | succ m IH =>
      intro k a s h ha
      rw [List.range'_succ]
      simp only [List.foldl_cons]
      have hk : k < p.length := by omega
      have hka : k < a.length := by omega
      have hstep := IH (k + 1)
        (a.set k (p.getD k 0 ^^^ (nextByte s).1)) (nextByte s).2
        (by omega) (by rw [List.length_set]; omega)
      show (List.range' (k + 1) m).foldl
          (fun q i =>
            let r := nextByte q.2; (q.1.set i (p.getD i 0 ^^^ r.1), r.2))
          (a.set k (p.getD k 0 ^^^ (nextByte s).1), (nextByte s).2) = _
      rw [hstep, take_succ_set a k hka]
      have hdropk : p.drop k = p.getD k 0 :: p.drop (k + 1) := by
        rw [List.drop_eq_getElem_cons hk, List.getD_eq_getElem _ _ hk]
      rw [hdropk]
      show (a.take k ++ [p.getD k 0 ^^^ (nextByte s).1] ++
            (encRec (nextByte s).2 (p.drop (k + 1))).1,
          (encRec (nextByte s).2 (p.drop (k + 1))).2)
        = (a.take k ++ ((p.getD k 0 ^^^ (nextByte s).1) ::
            (encRec (nextByte s).2 (p.drop (k + 1))).1),
          (encRec (nextByte s).2 (p.drop (k + 1))).2)
      rw [List.append_assoc]
      rfl

theorem encrypt_bytes_eq (s : Grain128) (p ct : List Nat)
    (h : ct.length = p.length) :
    encrypt_bytes s p ct = encRec s p := by
  show (List.range p.length).foldl
      (fun q i =>
        let r := nextByte q.2; (q.1.set i (p.getD i 0 ^^^ r.1), r.2)) (ct, s) = _
  rw [List.range_eq_range', enc_fold_eq p p.length 0 ct s (by omega) h]
  show (ct.take 0 ++ (encRec s (p.drop 0)).1, (encRec s (p.drop 0)).2) = _
  rw [List.take_zero, List.nil_append, List.drop_zero]

theorem decrypt_bytes_eq (s : Grain128) (c pt : List Nat)
    (h : pt.length = c.length) :
    decrypt_bytes s c pt = encRec s c := by
  show (List.range c.length).foldl
      (fun q i =>
        let r := nextByte q.2; (q.1.set i (c.getD i 0 ^^^ r.1), r.2)) (pt, s) = _
  rw [List.range_eq_range', enc_fold_eq c c.length 0 pt s (by omega) h]
  show (pt.take 0 ++ (encRec s (c.drop 0)).1, (encRec s (c.drop 0)).2) = _
  rw [List.take_zero, List.nil_append, List.drop_zero]

/-! ## Characterization of the loading loops -/

theorem setW_length (w : Nat → Nat) :
    ∀ (ps : List Nat) (l : List Nat), (setW w l ps).length = l.length := by
  intro ps
  induction ps with
  | nil => intro l; rfl
  | cons p rest IH =>
      intro l
      show (setW w (l.set p (w p)) rest).length = l.length
      rw [IH, List.length_set]

theorem setW_getD (w : Nat → Nat) :
    ∀ (ps : List Nat) (l : List Nat) (q : Nat),
      (setW w l ps).getD q 0
        = if q ∈ ps ∧ q < l.length then w q else l.getD q 0 := by
  intro ps
  induction ps with
  | nil => intro l q; simp [setW]
  | cons p rest IH =>
      intro l q
      show (setW w (l.set p (w p)) rest).getD q 0 = _
      rw [IH, List.length_set]
      by_cases hq : q ∈ rest ∧ q < l.length
      · rw [if_pos hq, if_pos ⟨List.mem_cons_of_mem _ hq.1, hq.2⟩]
      · rw [if_neg hq]
        by_cases hqp : q = p
        · subst hqp
          by_cases hlt : q < l.length
          · rw [if_pos ⟨List.mem_cons_self _ _, hlt⟩,
              List.getD_eq_getElem?_getD, List.getElem?_set_self hlt]
            rfl
          · rw [if_neg (fun hcon => hlt hcon.2),
              List.set_eq_of_length_le (by omega)]
        · have hne : (l.set p (w p)).getD q 0 = l.getD q 0 := by
            rw [List.getD_eq_getElem?_getD, List.getD_eq_getElem?_getD,
              List.getElem?_set_ne (fun hpq => hqp hpq.symm)]
          rw [hne, if_neg ?side]
          case side =>
            intro hcon
            rcases List.mem_cons.1 hcon.1 with h | h
            · exact hqp h
            · exact hq ⟨h, hcon.2⟩

theorem foldl_congr_mem {α β : Type _} (ix : List β) (f g : α → β → α)
    (h : ∀ a i, i ∈ ix → f a i = g a i) : ∀ a, ix.foldl f a = ix.foldl g a := by
  induction ix with
  | nil => intro a; rfl
  | cons i tl IH =>
      intro a
      simp only [List.foldl_cons]
      rw [h a i (List.mem_cons_self _ _)]
      exact IH (fun a j hj => h a j (List.mem_cons_of_mem _ hj)) _

theorem foldl_regs {γ : Type _} (f g : List Nat → γ → List Nat) :
    ∀ (ix : List γ) (t : Grain128),
      ix.foldl (fun t i => { t with NFSR := f t.NFSR i, LFSR := g t.LFSR i }) t
        = { t with NFSR := ix.foldl f t.NFSR, LFSR := ix.foldl g t.LFSR } := by
  intro ix
  induction ix with
  | nil => intro t; rfl
  | cons i tl IH =>
      intro t
      simp only [List.foldl_cons]
      rw [IH]

theorem loadPos_zero (a : Nat) : loadPos a 0 = [] := rfl

theorem loadPos_succ (a n : Nat) :
    loadPos a (n + 1)
      = (List.range 8).map (fun j => a * 8 + j) ++ loadPos (a + 1) n := by
  unfold loadPos
  rw [List.range'_succ, List.flatMap_cons]

theorem setW_append (w : Nat → Nat) (ps qs : List Nat) (l : List Nat) :
    setW w l (ps ++ qs) = setW w (setW w l ps) qs := by
  unfold setW
  rw [List.foldl_append]

theorem foldl_loadPos (w : Nat → Nat) (vf : Nat → Nat → Nat)
    (hw : ∀ i j, j < 8 → vf i j = w (i * 8 + j)) :
    ∀ (n a : Nat) (r : List Nat),
      (List.range' a n).foldl
          (fun r i => (List.range 8).foldl
            (fun r j => r.set (i * 8 + j) (vf i j)) r) r
        = setW w r (loadPos a n) := by
  intro n
  induction n with
  | zero => intro a r; rfl
  | succ n IH =>
      intro a r
      rw [List.range'_succ]
      simp only [List.foldl_cons]
      rw [IH (a + 1), loadPos_succ, setW_append]
      congr 1
      show (List.range 8).foldl (fun r j => r.set (a * 8 + j) (vf a j)) r
        = setW w r ((List.range 8).map (fun j => a * 8 + j))
      unfold setW
      rw [List.foldl_map]
      exact foldl_congr_mem _ _ _
        (fun l j hj => by
          rw [hw a j (by simpa using List.mem_range.1 hj)]) r

theorem foldl_loadPos0 (w : Nat → Nat) (vf : Nat → Nat → Nat)
    (hw : ∀ i j, j < 8 → vf i j = w (i * 8 + j)) (n : Nat) (r : List Nat) :
    (List.range n).foldl
        (fun r i => (List.range 8).foldl
          (fun r j => r.set (i * 8 + j) (vf i j)) r) r
      = setW w r (loadPos 0 n) := by
  rw [List.range_eq_range' n]
  exact foldl_loadPos w vf hw n 0 r

theorem mem_loadPos {q a n : Nat} :
    q ∈ loadPos a n ↔ a ≤ q / 8 ∧ q / 8 < a + n := by
  unfold loadPos
  rw [List.mem_flatMap]
  constructor
  · rintro ⟨i, hi, hq⟩
    rw [List.mem_range'_1] at hi
    rcases List.mem_map.1 hq with ⟨j, hj, rfl⟩
    have hj8 : j < 8 := by simpa using List.mem_range.1 hj
    have : (i * 8 + j) / 8 = i := by omega
    omega
  · rintro ⟨h1, h2⟩
    refine ⟨q / 8, ?_, ?_⟩
    · rw [List.mem_range'_1]; omega
    · refine List.mem_map.2 ⟨q % 8, ?_, by omega⟩
      exact List.mem_range.2 (by omega)

theorem grainLoad_regs (s : Grain128) (iv : List Nat) :
    (grainLoad s iv).NFSR
        = setW (byteBit s.key)
            (setW (byteBit s.key) s.NFSR (loadPos 0 (s.ivsize / 8)))
            (loadPos (s.ivsize / 8) (s.keysize / 8 - s.ivsize / 8))
      ∧ (grainLoad s iv).LFSR
        = setW (fun _ => 1)
            (setW (byteBit iv) s.LFSR (loadPos 0 (s.ivsize / 8)))
            (loadPos (s.ivsize / 8) (s.keysize / 8 - s.ivsize / 8))
      ∧ (grainLoad s iv).key = s.key
      ∧ (grainLoad s iv).keysize = s.keysize
      ∧ (grainLoad s iv).ivsize = s.ivsize := by
  have hbyte : ∀ (bs : List Nat) (i j : Nat), j < 8 →
      (bs.getD i 0 >>> j) &&& 1 = byteBit bs (i * 8 + j) := by
    intro bs i j hj
    unfold byteBit
    have h1 : (i * 8 + j) / 8 = i := by omega
    have h2 : (i * 8 + j) % 8 = j := by omega
    rw [h1, h2]
  have hphase1 :
      (List.range (s.ivsize / 8)).foldl
        (fun t i =>
          (List.range 8).foldl
            (fun u j =>
              { u with
                NFSR := u.NFSR.set (i * 8 + j) ((s.key.getD i 0 >>> j) &&& 1),
                LFSR := u.LFSR.set (i * 8 + j) ((iv.getD i 0 >>> j) &&& 1) }) t) s
      = { s with
          NFSR := setW (byteBit s.key) s.NFSR (loadPos 0 (s.ivsize / 8)),
          LFSR := setW (byteBit iv) s.LFSR (loadPos 0 (s.ivsize / 8)) } := by
    have hsplit : ∀ (t : Grain128) (i : Nat),
        (List.range 8).foldl
          (fun u j =>
            { u with
              NFSR := u.NFSR.set (i * 8 + j) ((s.key.getD i 0 >>> j) &&& 1),
              LFSR := u.LFSR.set (i * 8 + j) ((iv.getD i 0 >>> j) &&& 1) }) t
        = { t with
            NFSR := (List.range 8).foldl
              (fun r j => r.set (i * 8 + j) ((s.key.getD i 0 >>> j) &&& 1)) t.NFSR,
            LFSR := (List.range 8).foldl
              (fun r j => r.set (i * 8 + j) ((iv.getD i 0 >>> j) &&& 1)) t.LFSR } := by
      intro t i
      exact foldl_regs
        (fun r j => r.set (i * 8 + j) ((s.key.getD i 0 >>> j) &&& 1))
        (fun r j => r.set (i * 8 + j) ((iv.getD i 0 >>> j) &&& 1))
        (List.range 8) t
    rw [foldl_congr_mem (List.range (s.ivsize / 8))
        (fun t i =>
          (List.range 8).foldl
            (fun u j =>
              { u with
                NFSR := u.NFSR.set (i * 8 + j) ((s.key.getD i 0 >>> j) &&& 1),
                LFSR := u.LFSR.set (i * 8 + j) ((iv.getD i 0 >>> j) &&& 1) }) t)
        (fun t i =>
          { t with
            NFSR := (List.range 8).foldl
              (fun r j => r.set (i * 8 + j) ((s.key.getD i 0 >>> j) &&& 1)) t.NFSR,
            LFSR := (List.range 8).foldl
              (fun r j => r.set (i * 8 + j) ((iv.getD i 0 >>> j) &&& 1)) t.LFSR })
        (fun t i _ => hsplit t i) s]
    rw [foldl_regs
        (fun r i => (List.range 8).foldl
          (fun r j => r.set (i * 8 + j) ((s.key.getD i 0 >>> j) &&& 1)) r)
        (fun r i => (List.range 8).foldl
          (fun r j => r.set (i * 8 + j) ((iv.getD i 0 >>> j) &&& 1)) r)
        (List.range (s.ivsize / 8)) s]
    rw [foldl_loadPos0 (byteBit s.key)
        (fun i j => (s.key.getD i 0 >>> j) &&& 1) (hbyte s.key)
        (s.ivsize / 8) s.NFSR]
    rw [foldl_loadPos0 (byteBit iv)
        (fun i j => (iv.getD i 0 >>> j) &&& 1) (hbyte iv)
        (s.ivsize / 8) s.LFSR]
  have hphase2 : ∀ t : Grain128,
      (List.range' (s.ivsize / 8) (s.keysize / 8 - s.ivsize / 8)).foldl
        (fun t i =>
          (List.range 8).foldl
            (fun u j =>
              { u with
                NFSR := u.NFSR.set (i * 8 + j) ((s.key.getD i 0 >>> j) &&& 1),
                LFSR := u.LFSR.set (i * 8 + j) 1 }) t) t
      = { t with
          NFSR := setW (byteBit s.key) t.NFSR
            (loadPos (s.ivsize / 8) (s.keysize / 8 - s.ivsize / 8)),
          LFSR := setW (fun _ => 1) t.LFSR
            (loadPos (s.ivsize / 8) (s.keysize / 8 - s.ivsize / 8)) } := by
    intro t
    have hsplit : ∀ (t : Grain128) (i : Nat),
        (List.range 8).foldl
          (fun u j =>
            { u with
              NFSR := u.NFSR.set (i * 8 + j) ((s.key.getD i 0 >>> j) &&& 1),
              LFSR := u.LFSR.set (i * 8 + j) 1 }) t
        = { t with
            NFSR := (List.range 8).foldl
              (fun r j => r.set (i * 8 + j) ((s.key.getD i 0 >>> j) &&& 1)) t.NFSR,
            LFSR := (List.range 8).foldl
              (fun r j => r.set (i * 8 + j) 1) t.LFSR } := by
      intro t i
      exact foldl_regs
        (fun r j => r.set (i * 8 + j) ((s.key.getD i 0 >>> j) &&& 1))
        (fun r j => r.set (i * 8 + j) 1)
        (List.range 8) t
    rw [foldl_congr_mem
        (List.range' (s.ivsize / 8) (s.keysize / 8 - s.ivsize / 8))
        (fun t i =>
          (List.range 8).foldl
            (fun u j =>
              { u with
                NFSR := u.NFSR.set (i * 8 + j) ((s.key.getD i 0 >>> j) &&& 1),
                LFSR := u.LFSR.set (i * 8 + j) 1 }) t)
        (fun t i =>
          { t with
            NFSR := (List.range 8).foldl
              (fun r j => r.set (i * 8 + j) ((s.key.getD i 0 >>> j) &&& 1)) t.NFSR,
            LFSR := (List.range 8).foldl
              (fun r j => r.set (i * 8 + j) 1) t.LFSR })
        (fun t i _ => hsplit t i) t]
    rw [foldl_regs
        (fun r i => (List.range 8).foldl
          (fun r j => r.set (i * 8 + j) ((s.key.getD i 0 >>> j) &&& 1)) r)
        (fun r i => (List.range 8).foldl
          (fun r j => r.set (i * 8 + j) 1) r)
        (List.range' (s.ivsize / 8) (s.keysize / 8 - s.ivsize / 8)) t]
    rw [foldl_loadPos (byteBit s.key)
        (fun i j => (s.key.getD i 0 >>> j) &&& 1) (hbyte s.key)
        (s.keysize / 8 - s.ivsize / 8) (s.ivsize / 8) t.NFSR]
    rw [foldl_loadPos (fun _ => 1) (fun _ _ => 1) (fun _ _ _ => rfl)
        (s.keysize / 8 - s.ivsize / 8) (s.ivsize / 8) t.LFSR]
  show (grainLoad s iv).NFSR = _ ∧ (grainLoad s iv).LFSR = _ ∧ _ ∧ _ ∧ _
  have : grainLoad s iv
      = { s with
          NFSR := setW (byteBit s.key)
            (setW (byteBit s.key) s.NFSR (loadPos 0 (s.ivsize / 8)))
            (loadPos (s.ivsize / 8) (s.keysize / 8 - s.ivsize / 8)),
          LFSR := setW (fun _ => 1)
            (setW (byteBit iv) s.LFSR (loadPos 0 (s.ivsize / 8)))
            (loadPos (s.ivsize / 8) (s.keysize / 8 - s.ivsize / 8)) } := by
    unfold grainLoad
    rw [hphase1, hphase2]
  rw [this]
  exact ⟨rfl, rfl, rfl, rfl, rfl⟩

theorem setW_BitList {l : List Nat} (hl : BitList l) (w : Nat → Nat)
    (hw : ∀ p, IsBit (w p)) (ps : List Nat) : BitList (setW w l ps) :=
  foldl_inv BitList _ ps (fun a p _ ha => ha.set (hw p) p) l hl

theorem byteBit_isBit (bs : List Nat) (p : Nat) : IsBit (byteBit bs p) :=
  IsBit.extract _ _

theorem grainLoad_NFSR_length (s : Grain128) (iv : List Nat) :
    (grainLoad s iv).NFSR.length = s.NFSR.length := by
  rw [(grainLoad_regs s iv).1, setW_length, setW_length]

theorem grainLoad_LFSR_length (s : Grain128) (iv : List Nat) :
    (grainLoad s iv).LFSR.length = s.LFSR.length := by
  rw [(grainLoad_regs s iv).2.1, setW_length, setW_length]

theorem grainLoad_Shape (s : Grain128) (iv : List Nat) (hs : Shape s) :
    Shape (grainLoad s iv) := by
  refine ⟨?_, ?_, ?_⟩
  · rw [(grainLoad_regs s iv).2.2.2.1]; exact hs.1
  · rw [grainLoad_NFSR_length]; exact hs.2.1
  · rw [grainLoad_LFSR_length]; exact hs.2.2

theorem grainLoad_BitState (s : Grain128) (iv : List Nat) (hb : BitState s) :
    BitState (grainLoad s iv) := by
  constructor
  · rw [(grainLoad_regs s iv).1]
    exact setW_BitList (setW_BitList hb.1 _ (byteBit_isBit s.key) _) _
      (byteBit_isBit s.key) _
  · rw [(grainLoad_regs s iv).2.1]
    exact setW_BitList (setW_BitList hb.2 _ (byteBit_isBit iv) _) _
      (fun _ => Or.inr rfl) _

theorem grainLoad_cell (s : Grain128) (iv : List Nat)
    (hN : s.NFSR.length = 128) (hL : s.LFSR.length = 128)
    (hivs : s.ivsize / 8 ≤ 16) :
    (∀ i j, i < s.ivsize / 8 → j < 8 →
        (grainLoad s iv).NFSR.getD (i * 8 + j) 0 = (s.key.getD i 0 >>> j) &&& 1
      ∧ (grainLoad s iv).LFSR.getD (i * 8 + j) 0 = (iv.getD i 0 >>> j) &&& 1)
  ∧ (∀ i j, s.ivsize / 8 ≤ i → i < s.keysize / 8 → i < 16 → j < 8 →
        (grainLoad s iv).NFSR.getD (i * 8 + j) 0 = (s.key.getD i 0 >>> j) &&& 1
      ∧ (grainLoad s iv).LFSR.getD (i * 8 + j) 0 = 1) := by
  obtain ⟨hNr, hLr, _⟩ := grainLoad_regs s iv
  have hbb : ∀ (bs : List Nat) (i j : Nat), j < 8 →
      byteBit bs (i * 8 + j) = (bs.getD i 0 >>> j) &&& 1 := by
    intro bs i j hj
    unfold byteBit
    have h1 : (i * 8 + j) / 8 = i := by omega
    have h2 : (i * 8 + j) % 8 = j := by omega
    rw [h1, h2]
  constructor
  · intro i j hi hj
    have hq8 : (i * 8 + j) / 8 = i := by omega
    have hq : i * 8 + j < 128 := by omega
    have hout : ¬ (i * 8 + j ∈
        loadPos (s.ivsize / 8) (s.keysize / 8 - s.ivsize / 8) ∧
        i * 8 + j < (setW (byteBit s.key) s.NFSR
          (loadPos 0 (s.ivsize / 8))).length) := by
      intro hcon
      have := mem_loadPos.1 hcon.1
      omega
    have hout2 : ¬ (i * 8 + j ∈
        loadPos (s.ivsize / 8) (s.keysize / 8 - s.ivsize / 8) ∧
        i * 8 + j < (setW (byteBit iv) s.LFSR
          (loadPos 0 (s.ivsize / 8))).length) := by
      intro hcon
      have := mem_loadPos.1 hcon.1
      omega
    have hin1 : i * 8 + j ∈ loadPos 0 (s.ivsize / 8) :=
      mem_loadPos.2 (by omega)
    constructor
    · rw [hNr, setW_getD, if_neg hout, setW_getD,
        if_pos ⟨hin1, by omega⟩, hbb s.key i j hj]
    · rw [hLr, setW_getD, if_neg hout2, setW_getD,
        if_pos ⟨hin1, by omega⟩, hbb iv i j hj]
  · intro i j hi1 hi2 hi16 hj
    have hq8 : (i * 8 + j) / 8 = i := by omega
    have hq : i * 8 + j < 128 := by omega
    have hin2 : i * 8 + j ∈
        loadPos (s.ivsize / 8) (s.keysize / 8 - s.ivsize / 8) :=
      mem_loadPos.2 (by omega)
    constructor
    · rw [hNr, setW_getD, if_pos ⟨hin2, by rw [setW_length]; omega⟩,
        hbb s.key i j hj]
    · rw [hLr, setW_getD, if_pos ⟨hin2, by rw [setW_length]; omega⟩]

/-! ## Stream characterization of the byte loops -/

theorem streamState_zero (s : Grain128) : streamState s 0 = s := rfl

theorem streamState_add (a : Nat) :
    ∀ (b : Nat) (s : Grain128),
      streamState s (a + b) = streamState (streamState s a) b := by
  induction a with
  | zero => intro b s; rw [Nat.zero_add]; rfl
  | succ a IH =>
      intro b s
      have h : a + 1 + b = (a + b) + 1 := by omega
      rw [h]
      show streamState (keystream s).2 (a + b)
        = streamState (streamState (keystream s).2 a) b
      exact IH b (keystream s).2

theorem streamOut_length (m : Nat) :
    ∀ s : Grain128, (streamOut s m).length = m := by
  induction m with
  | zero => intro s; rfl
  | succ m IH =>
      intro s
      show ((keystream s).1 :: streamOut (keystream s).2 m).length = m + 1
      rw [List.length_cons, IH]

theorem streamOut_add (a : Nat) :
    ∀ (b : Nat) (s : Grain128),
      streamOut s (a + b) = streamOut s a ++ streamOut (streamState s a) b := by
  induction a with
  | zero => intro b s; rw [Nat.zero_add]; rfl
  | succ a IH =>
      intro b s
      have h : a + 1 + b = (a + b) + 1 := by omega
      rw [h]
      show (keystream s).1 :: streamOut (keystream s).2 (a + b)
        = ((keystream s).1 :: streamOut (keystream s).2 a) ++ _
      rw [List.cons_append, IH b (keystream s).2]
      rfl

theorem streamState_BitState (m : Nat) :
    ∀ s : Grain128, BitState s → BitState (streamState s m) := by
  induction m with
  | zero => intro s hb; exact hb
  | succ m IH => intro s hb; exact IH _ (keystream_BitState s hb)

theorem streamState_Shape (m : Nat) :
    ∀ s : Grain128, Shape s → Shape (streamState s m) := by
  induction m with
  | zero => intro s hs; exact hs
  | succ m IH => intro s hs; exact IH _ (keystream_Shape s hs)

theorem streamOut_BitList (m : Nat) :
    ∀ s : Grain128, BitState s → BitList (streamOut s m) := by
  induction m with
  | zero => intro s _ c hc; cases hc
  | succ m IH =>
      intro s hb c hc
      rcases List.mem_cons.1 hc with rfl | hc2
      · rw [keystream_fst]
        exact spec_outbit_isBit s hb
      · exact IH _ (keystream_BitState s hb) _ hc2

theorem byteFold_char :
    ∀ (m j0 acc : Nat) (t : Grain128),
      (List.range' j0 m).foldl
          (fun a j => let r := keystream a.2; (a.1 ||| r.1 <<< j, r.2)) (acc, t)
        = ((List.range' j0 m).foldl
            (fun a j => a ||| (streamOut t m).getD (j - j0) 0 <<< j) acc,
           streamState t m) := by
  intro m
  induction m with
  | zero => intro j0 acc t; rfl
  | succ m IH =>
      intro j0 acc t
      rw [List.range'_succ]
      simp only [List.foldl_cons]
      show (List.range' (j0 + 1) m).foldl
          (fun a j => let r := keystream a.2; (a.1 ||| r.1 <<< j, r.2))
          (acc ||| (keystream t).1 <<< j0, (keystream t).2) = _
      rw [IH (j0 + 1) (acc ||| (keystream t).1 <<< j0) (keystream t).2]
      have hfun : ∀ (a j : Nat), j ∈ List.range' (j0 + 1) m →
          a ||| (streamOut (keystream t).2 m).getD (j - (j0 + 1)) 0 <<< j
            = a ||| (streamOut t (m + 1)).getD (j - j0) 0 <<< j := by
        intro a j hj
        have hj1 : j0 + 1 ≤ j := (List.mem_range'_1.1 hj).1
        have hsub : j - j0 = (j - (j0 + 1)) + 1 := by omega
        rw [hsub]
        rfl
      rw [foldl_congr_mem _ _ _ hfun (acc ||| (keystream t).1 <<< j0)]
      have hout0 : (streamOut t (m + 1)).getD (j0 - j0) 0 = (keystream t).1 := by
        rw [Nat.sub_self]
        rfl
      rw [hout0]
      rfl

theorem nextByte_char (s : Grain128) :
    nextByte s
      = ((List.range' 0 8).foldl
          (fun a j => a ||| (streamOut s 8).getD j 0 <<< j) 0,
         streamState s 8) := by
  show (List.range 8).foldl
      (fun a j => let r := keystream a.2; (a.1 ||| r.1 <<< j, r.2)) (0, s) = _
  rw [List.range_eq_range' 8, byteFold_char 8 0 0 s]
  have hfun : ∀ (a j : Nat), j ∈ List.range' 0 8 →
      a ||| (streamOut s 8).getD (j - 0) 0 <<< j
        = a ||| (streamOut s 8).getD j 0 <<< j := by
    intro a j _
    rw [Nat.sub_zero]
  rw [foldl_congr_mem _ _ _ hfun 0]

theorem nextByte_snd (s : Grain128) : (nextByte s).2 = streamState s 8 := by
  rw [nextByte_char]

theorem nextByte_Shape (s : Grain128) (hs : Shape s) : Shape (nextByte s).2 := by
  rw [nextByte_snd]
  exact streamState_Shape 8 s hs

theorem nextByte_BitState (s : Grain128) (hb : BitState s) :
    BitState (nextByte s).2 := by
  rw [nextByte_snd]
  exact streamState_BitState 8 s hb

theorem ksRec_snd (n : Nat) :
    ∀ s : Grain128, (ksRec s n).2 = streamState s (8 * n) := by
  induction n with
  | zero => intro s; rfl
  | succ n IH =>
      intro s
      show (ksRec (nextByte s).2 n).2 = _
      rw [IH, nextByte_snd, ← streamState_add 8 (8 * n) s]
      congr 1
      omega
  
theorem ksRec_length (n : Nat) :
    ∀ s : Grain128, (ksRec s n).1.length = n := by
  induction n with
  | zero => intro s; rfl
  | succ n IH =>
      intro s
      show ((nextByte s).1 :: (ksRec (nextByte s).2 n).1).length = n + 1
      rw [List.length_cons, IH]

theorem ksRec_getD (n : Nat) :
    ∀ (i : Nat), i < n → ∀ s : Grain128,
      (ksRec s n).1.getD i 0 = (nextByte (streamState s (8 * i))).1 := by
  induction n with
  | zero => intro i hi; omega
  | succ n IH =>
      intro i hi s
      cases i with
      | zero => rfl
      | succ i =>
          show ((ksRec (nextByte s).2 n).1).getD i 0 = _
          have harith : 8 * (i + 1) = 8 + 8 * i := by omega
          rw [IH i (by omega) (nextByte s).2, nextByte_snd, harith,
            streamState_add 8 (8 * i) s]

theorem IsBit.testBit_iff {b : Nat} (hb : IsBit b) (m : Nat) :
    b.testBit m = true ↔ b = 1 ∧ m = 0 := by
  rcases hb with rfl | rfl
  · simp
  · cases m with
    | zero => simp
    | succ m =>
        rw [Nat.testBit_succ]
        norm_num

theorem orFold_testBit (bf : Nat → Nat) (hb : ∀ j, IsBit (bf j)) :
    ∀ (m j0 acc k : Nat),
      (((List.range' j0 m).foldl (fun a j => a ||| bf j <<< j) acc).testBit k
          = true)
        ↔ (acc.testBit k = true ∨ (j0 ≤ k ∧ k < j0 + m ∧ bf k = 1)) := by
  intro m
  induction m with
  | zero =>
      intro j0 acc k
      constructor
      · intro h; exact Or.inl h
      · rintro (h | h)
        · exact h
        · omega
  | succ m IH =>
      intro j0 acc k
      rw [List.range'_succ]
      simp only [List.foldl_cons]
      rw [IH (j0 + 1) (acc ||| bf j0 <<< j0) k]
      have hacc : (acc ||| bf j0 <<< j0).testBit k = true
          ↔ (acc.testBit k = true ∨ (k = j0 ∧ bf j0 = 1)) := by
        rw [Nat.testBit_or, Bool.or_eq_true]
        constructor
        · rintro (h | h)
          · exact Or.inl h
          · rw [Nat.testBit_shiftLeft, Bool.and_eq_true] at h
            obtain ⟨h1, h2⟩ := h
            have hj0k : j0 ≤ k := by simpa using h1
            rw [(hb j0).testBit_iff] at h2
            exact Or.inr ⟨by omega, h2.1⟩
        · rintro (h | ⟨rfl, h2⟩)
          · exact Or.inl h
          · right
            rw [Nat.testBit_shiftLeft, Bool.and_eq_true]
            refine ⟨by simp, ?_⟩
            rw [(hb k).testBit_iff]
            exact ⟨h2, by omega⟩
      rw [hacc]
      constructor
      · rintro ((h | ⟨rfl, h⟩) | h)
        · exact Or.inl h
        · exact Or.inr ⟨by omega, by omega, h⟩
        · exact Or.inr ⟨by omega, by omega, h.2.2⟩
      · rintro (h | ⟨h1, h2, h3⟩)
        · exact Or.inl (Or.inl h)
        · by_cases hk : k = j0
          · subst hk
            exact Or.inl (Or.inr ⟨rfl, h3⟩)
          · exact Or.inr ⟨by omega, by omega, h3⟩

/-! ## The all-zero-register state is a fixed point producing zero output -/

theorem getD_replicate_zero (n : Nat) : ∀ i : Nat,
    (List.replicate n (0 : Nat)).getD i 0 = 0 := by
  intro i
  rw [List.getD_eq_getElem?_getD]
  by_cases h : i < n
  · rw [List.getElem?_eq_getElem (by simpa using h)]
    simp
  · rw [List.getElem?_eq_none (by simpa using h)]
    rfl

theorem shift_replicate (ix : List Nat) (n : Nat) :
    ix.foldl (fun a i => a.set (i - 1) (a.getD i 0))
        (List.replicate n (0 : Nat)) = List.replicate n 0 :=
  foldl_inv (fun l => l = List.replicate n 0) _ ix
    (fun a i _ ha => by
      show a.set (i - 1) (a.getD i 0) = List.replicate n 0
      rw [ha, getD_replicate_zero, List.set_replicate_self]) _ rfl

theorem grain_ext (a b : Grain128) (h1 : a.LFSR = b.LFSR)
    (h2 : a.NFSR = b.NFSR) (h3 : a.key = b.key) (h4 : a.keysize = b.keysize)
    (h5 : a.ivsize = b.ivsize) : a = b := by
  cases a
  cases b
  simp only at h1 h2 h3 h4 h5
  subst h1 h2 h3 h4 h5
  rfl

theorem keystream_zeroReg (s : Grain128) (hN : s.NFSR = List.replicate 128 0)
    (hL : s.LFSR = List.replicate 128 0) : keystream s = (0, s) := by
  have hout : (keystream s).1 = 0 := by
    rw [keystream_fst]
    unfold spec_outbit tapN tapL
    rw [hN, hL]
    simp only [getD_replicate_zero]
    decide
  have hnb : spec_nbit (tapN s) (tapL s) = 0 := by
    unfold spec_nbit tapN tapL
    rw [hN, hL]
    simp only [getD_replicate_zero]
    decide
  have hlb : spec_lbit (tapL s) = 0 := by
    unfold spec_lbit tapL
    rw [hL]
    simp only [getD_replicate_zero]
    decide
  have hsN : (keystream s).2.NFSR = s.NFSR := by
    rw [keystream_NFSR_def, hnb, hN, shift_replicate, List.set_replicate_self]
  have hsL : (keystream s).2.LFSR = s.LFSR := by
    rw [keystream_LFSR_def, hlb, hL, shift_replicate, List.set_replicate_self]
  have hstate : (keystream s).2 = s :=
    grain_ext _ _ hsL hsN (keystream_key s) (keystream_keysize s)
      (keystream_ivsize s)
  have hpair : keystream s = ((keystream s).1, (keystream s).2) := rfl
  rw [hpair, hout, hstate]

theorem nextByte_zero (s : Grain128) (hks : keystream s = (0, s)) :
    nextByte s = (0, s) :=
  foldl_inv (fun a => a = ((0 : Nat), s)) _ (List.range 8)
    (fun a j _ ha => by
      show (a.1 ||| (keystream a.2).1 <<< j, (keystream a.2).2) = (0, s)
      rw [ha]
      show ((0 : Nat) ||| (keystream s).1 <<< j, (keystream s).2) = (0, s)
      rw [hks]
      show ((0 : Nat) ||| 0 <<< j, s) = (0, s)
      rw [Nat.zero_shiftLeft, Nat.zero_or]) (0, s) rfl

theorem ksRec_zeroByte (s : Grain128) (h : nextByte s = (0, s)) :
    ∀ n, ksRec s n = (List.replicate n 0, s) := by
  intro n
  induction n with
  | zero => rfl
  | succ n IH =>
      show ((nextByte s).1 :: (ksRec (nextByte s).2 n).1,
        (ksRec (nextByte s).2 n).2) = _
      rw [h]
      show ((0 : Nat) :: (ksRec s n).1, (ksRec s n).2) = _
      rw [IH]
      rfl

theorem encRec_zeroByte (s : Grain128) (h : nextByte s = (0, s)) :
    ∀ p : List Nat, encRec s p = (p, s) := by
  intro p
  induction p with
  | nil => rfl
  | cons b rest IH =>
      show ((b ^^^ (nextByte s).1) :: (encRec (nextByte s).2 rest).1,
        (encRec (nextByte s).2 rest).2) = _
      rw [h]
      show ((b ^^^ (0 : Nat)) :: (encRec s rest).1, (encRec s rest).2) = _
      rw [IH, Nat.xor_zero]

/-! ## XOR involution of encrypt/decrypt -/

theorem encRec_length : ∀ (p : List Nat) (s : Grain128),
    (encRec s p).1.length = p.length := by
  intro p
  induction p with
  | nil => intro s; rfl
  | cons b rest IH =>
      intro s
      show ((b ^^^ (nextByte s).1) :: (encRec (nextByte s).2 rest).1).length
        = rest.length + 1
      rw [List.length_cons, IH]

theorem encRec_invol : ∀ (p : List Nat) (s : Grain128),
    (encRec s ((encRec s p).1)).1 = p := by
  intro p
  induction p with
  | nil => intro s; rfl
  | cons b rest IH =>
      intro s
      show ((b ^^^ (nextByte s).1) ^^^ (nextByte s).1) ::
        (encRec (nextByte s).2 ((encRec (nextByte s).2 rest).1)).1 = b :: rest
      rw [IH (nextByte s).2, Nat.xor_assoc, Nat.xor_self, Nat.xor_zero]

/-! ## Bit-valuedness of every reachable state -/

theorem BitList_replicate_zero (n : Nat) :
    BitList (List.replicate n (0 : Nat)) := by
  intro c hc
  rw [List.eq_of_mem_replicate hc]
  exact Or.inl rfl

theorem keysetup_eq {key : List Nat} {ks ivs : Nat} {s : Grain128}
    (h : keysetup key ks ivs = some s) :
    key.length = 16 ∧
      s = { key := key, keysize := ks, ivsize := ivs,
            LFSR := List.replicate 128 0,
            NFSR := List.replicate 128 0 } := by
  unfold keysetup at h
  by_cases hkey : key.length = 16
  · rw [if_pos hkey] at h
    exact ⟨hkey, (Option.some.inj h).symm⟩
  · rw [if_neg hkey] at h
    cases h

theorem ivsetup_eq {s : Grain128} {iv : List Nat} {t : Grain128}
    (h : ivsetup s iv = some t) :
    t = (List.range 256).foldl (fun t _ => initClock t) (grainLoad s iv) := by
  unfold ivsetup at h
  split at h
  · exact (Option.some.inj h).symm
  · cases h

theorem initClock_BitState (s : Grain128) (hb : BitState s) :
    BitState (initClock s) := by
  have h2 := keystream_BitState s hb
  have hout : IsBit (keystream s).1 := by
    rw [keystream_fst]; exact spec_outbit_isBit s hb
  constructor
  · exact h2.1.set ((IsBit.getD h2.1 127).xor hout) 127
  · exact h2.2.set ((IsBit.getD h2.2 127).xor hout) 127

theorem warm_BitState (s : Grain128) (hb : BitState s) :
    BitState ((List.range 256).foldl (fun t _ => initClock t) s) :=
  foldl_inv BitState _ (List.range 256)
    (fun a _ _ ha => initClock_BitState a ha) s hb

theorem foldl_snd {α β γ : Type _} (F : α × β → γ → α) (h : β → β) :
    ∀ (ix : List γ) (a : α) (b : β),
      (ix.foldl (fun q i => (F q i, h q.2)) (a, b)).2
        = ix.foldl (fun t _ => h t) b := by
  intro ix
  induction ix with
  | nil => intro a b; rfl
  | cons i tl IH =>
      intro a b
      simp only [List.foldl_cons]
      exact IH (F (a, b) i) (h b)

theorem keystream_bytes_snd (s : Grain128) (buf : List Nat) :
    (keystream_bytes s buf).2
      = (List.range buf.length).foldl (fun t _ => (nextByte t).2) s := by
  show ((List.range buf.length).foldl
      (fun q i => (q.1.set i (nextByte q.2).1, (nextByte q.2).2)) (buf, s)).2 = _
  exact foldl_snd (fun q i => q.1.set i (nextByte q.2).1)
    (fun t => (nextByte t).2) (List.range buf.length) buf s

theorem encrypt_bytes_snd (s : Grain128) (p c : List Nat) :
    (encrypt_bytes s p c).2
      = (List.range p.length).foldl (fun t _ => (nextByte t).2) s := by
  show ((List.range p.length).foldl
      (fun q i => (q.1.set i (p.getD i 0 ^^^ (nextByte q.2).1),
        (nextByte q.2).2)) (c, s)).2 = _
  exact foldl_snd (fun q i => q.1.set i (p.getD i 0 ^^^ (nextByte q.2).1))
    (fun t => (nextByte t).2) (List.range p.length) c s

theorem decrypt_bytes_snd (s : Grain128) (c p : List Nat) :
    (decrypt_bytes s c p).2
      = (List.range c.length).foldl (fun t _ => (nextByte t).2) s := by
  show ((List.range c.length).foldl
      (fun q i => (q.1.set i (c.getD i 0 ^^^ (nextByte q.2).1),
        (nextByte q.2).2)) (p, s)).2 = _
  exact foldl_snd (fun q i => q.1.set i (c.getD i 0 ^^^ (nextByte q.2).1))
    (fun t => (nextByte t).2) (List.range c.length) p s

theorem fold_nextByte_BitState (ix : List Nat) (s : Grain128)
    (hb : BitState s) :
    BitState (ix.foldl (fun t _ => (nextByte t).2) s) :=
  foldl_inv BitState _ ix (fun a _ _ ha => nextByte_BitState a ha) s hb

theorem reachable_BitState {s : Grain128} (h : Reachable s) : BitState s := by
  induction h with
  | setup key ks ivs s h =>
      obtain ⟨_, rfl⟩ := keysetup_eq h
      exact ⟨BitList_replicate_zero 128, BitList_replicate_zero 128⟩
  | init s iv t _ h IH =>
      rw [ivsetup_eq h]
      exact warm_BitState _ (grainLoad_BitState s iv IH)
  | ks s buf _ IH =>
      rw [keystream_bytes_snd]
      exact fold_nextByte_BitState _ _ IH
  | enc s p c _ IH =>
      rw [encrypt_bytes_snd]
      exact fold_nextByte_BitState _ _ IH
  | dec s c p _ IH =>
      rw [decrypt_bytes_snd]
      exact fold_nextByte_BitState _ _ IH

/-! ## The bounds-checked code never fails on well-shaped states -/

theorem getP_some (l : List Nat) (i : Nat) (h : i < l.length) :
    l[i]? = some (l.getD i 0) := by
  rw [List.getElem?_eq_getElem h, List.getD_eq_getElem _ _ h]

theorem obind_some {a b : Type} (x : a) (f : a → Option b) :
    obind (some x) f = f x := rfl

theorem keystreamP_eq (s : Grain128) (hs : Shape s) :
    keystreamP s = some (keystream s) := by
  obtain ⟨hk, hN, hL⟩ := hs
  unfold keystreamP
  rw [getP_some s.NFSR 2 (by omega),
    getP_some s.NFSR 15 (by omega),
    getP_some s.NFSR 36 (by omega),
    getP_some s.NFSR 45 (by omega),
    getP_some s.NFSR 64 (by omega),
    getP_some s.NFSR 73 (by omega),
    getP_some s.NFSR 89 (by omega),
    getP_some s.LFSR 93 (by omega),
    getP_some s.NFSR 12 (by omega),
    getP_some s.LFSR 8 (by omega),
    getP_some s.LFSR 13 (by omega),
    getP_some s.LFSR 20 (by omega),
    getP_some s.NFSR 95 (by omega),
    getP_some s.LFSR 42 (by omega),
    getP_some s.LFSR 60 (by omega),
    getP_some s.LFSR 79 (by omega),
    getP_some s.LFSR 95 (by omega),
    getP_some s.LFSR 0 (by omega),
    getP_some s.NFSR 0 (by omega),
    getP_some s.NFSR 26 (by omega),
    getP_some s.NFSR 56 (by omega),
    getP_some s.NFSR 91 (by omega),
    getP_some s.NFSR 96 (by omega),
    getP_some s.NFSR 3 (by omega),
    getP_some s.NFSR 67 (by omega),
    getP_some s.NFSR 11 (by omega),
    getP_some s.NFSR 13 (by omega),
    getP_some s.NFSR 17 (by omega),
    getP_some s.NFSR 18 (by omega),
    getP_some s.NFSR 27 (by omega),
    getP_some s.NFSR 59 (by omega),
    getP_some s.NFSR 40 (by omega),
    getP_some s.NFSR 48 (by omega),
    getP_some s.NFSR 61 (by omega),
    getP_some s.NFSR 65 (by omega),
    getP_some s.NFSR 68 (by omega),
    getP_some s.NFSR 84 (by omega),
    getP_some s.LFSR 7 (by omega),
    getP_some s.LFSR 38 (by omega),
    getP_some s.LFSR 70 (by omega),
    getP_some s.LFSR 81 (by omega),
    getP_some s.LFSR 96 (by omega)]
  simp only [obind_some]
  have hshift : ∀ r : List Nat, r.length = 128 →
      (List.range' 1 (s.keysize - 1)).foldlM
          (fun r i => obind r[i]? fun v => setP r (i - 1) v) r
        = some ((List.range' 1 (s.keysize - 1)).foldl
            (fun r i => r.set (i - 1) (r.getD i 0)) r)
      ∧ ((List.range' 1 (s.keysize - 1)).foldl
            (fun r i => r.set (i - 1) (r.getD i 0)) r).length = 128 := by
    intro r hr
    exact foldlM_eq_foldl (fun l : List Nat => l.length = 128)
      (fun r i => obind r[i]? fun v => setP r (i - 1) v)
      (fun r i => r.set (i - 1) (r.getD i 0))
      (List.range' 1 (s.keysize - 1))
      (fun a i hi ha => by
        have hmem := List.mem_range'_1.1 hi
        have hi128 : i < 128 := by omega
        have halen : a.length = 128 := ha
        constructor
        · show obind a[i]? (fun v => setP a (i - 1) v)
            = some (a.set (i - 1) (a.getD i 0))
          rw [getP_some a i (by omega), obind_some]
          unfold setP
          rw [if_pos (by omega)]
        · show (a.set (i - 1) (a.getD i 0)).length = 128
          rw [List.length_set]
          exact halen)
      r hr
  obtain ⟨hfn, hlenN⟩ := hshift s.NFSR hN
  obtain ⟨hfl, hlenL⟩ := hshift s.LFSR hL
  rw [hfn]
  simp only [obind_some]
  rw [hfl]
  simp only [obind_some]
  unfold setP
  rw [if_pos (by rw [hlenN]; omega)]
  simp only [obind_some]
  rw [if_pos (by rw [hlenL]; omega)]
  simp only [obind_some]
  rfl

theorem nextByteP_eq (s : Grain128) (hs : Shape s) :
    nextByteP s = some (nextByte s) := by
  have main := foldlM_eq_foldl
    (fun a : Nat × Grain128 => Shape a.2)
    (fun a j => obind (keystreamP a.2) fun r => some (a.1 ||| r.1 <<< j, r.2))
    (fun a j => let r := keystream a.2; (a.1 ||| r.1 <<< j, r.2))
    (List.range 8)
    (fun a j _ ha => by
      have ha2 : Shape a.2 := ha
      constructor
      · show obind (keystreamP a.2) (fun r => some (a.1 ||| r.1 <<< j, r.2))
          = some (a.1 ||| (keystream a.2).1 <<< j, (keystream a.2).2)
        rw [keystreamP_eq a.2 ha2, obind_some]
      · show Shape (keystream a.2).2
        exact keystream_Shape a.2 ha2)
    (0, s) hs
  exact main.1

theorem keystream_bytesP_eq (s : Grain128) (hs : Shape s) (ks : List Nat) :
    keystream_bytesP s ks = some (keystream_bytes s ks) := by
  have main := foldlM_eq_foldl
    (fun a : List Nat × Grain128 => a.1.length = ks.length ∧ Shape a.2)
    (fun a i => obind (nextByteP a.2) fun r =>
      obind (setP a.1 i r.1) fun b => some (b, r.2))
    (fun a i => let r := nextByte a.2; (a.1.set i r.1, r.2))
    (List.range ks.length)
    (fun a i hi ha => by
      have hlen : a.1.length = ks.length := ha.1
      have hi2 : i < ks.length := List.mem_range.1 hi
      constructor
      · show obind (nextByteP a.2) (fun r =>
            obind (setP a.1 i r.1) fun b => some (b, r.2))
          = some (a.1.set i (nextByte a.2).1, (nextByte a.2).2)
        rw [nextByteP_eq a.2 ha.2, obind_some]
        unfold setP
        rw [if_pos (by omega), obind_some]
      · show (a.1.set i (nextByte a.2).1).length = ks.length
          ∧ Shape (nextByte a.2).2
        exact ⟨by rw [List.length_set]; exact hlen, nextByte_Shape a.2 ha.2⟩)
    (ks, s) ⟨rfl, hs⟩
  exact main.1

theorem encrypt_bytesP_eq (s : Grain128) (hs : Shape s) (p ct : List Nat)
    (hlen : p.length ≤ ct.length) :
    encrypt_bytesP s p ct = some (encrypt_bytes s p ct) := by
  have main := foldlM_eq_foldl
    (fun a : List Nat × Grain128 => a.1.length = ct.length ∧ Shape a.2)
    (fun a i => obind (nextByteP a.2) fun r =>
      obind (p[i]?) fun pi =>
      obind (setP a.1 i (pi ^^^ r.1)) fun b => some (b, r.2))
    (fun a i => let r := nextByte a.2;
      (a.1.set i (p.getD i 0 ^^^ r.1), r.2))
    (List.range p.length)
    (fun a i hi ha => by
      have hbuf : a.1.length = ct.length := ha.1
      have hi2 : i < p.length := List.mem_range.1 hi
      constructor
      · show obind (nextByteP a.2) (fun r =>
            obind (p[i]?) fun pi =>
            obind (setP a.1 i (pi ^^^ r.1)) fun b => some (b, r.2))
          = some (a.1.set i (p.getD i 0 ^^^ (nextByte a.2).1),
              (nextByte a.2).2)
        rw [nextByteP_eq a.2 ha.2, obind_some, getP_some p i (by omega),
          obind_some]
        unfold setP
        rw [if_pos (by omega), obind_some]
      · show (a.1.set i (p.getD i 0 ^^^ (nextByte a.2).1)).length = ct.length
          ∧ Shape (nextByte a.2).2
        exact ⟨by rw [List.length_set]; exact hbuf, nextByte_Shape a.2 ha.2⟩)
    (ct, s) ⟨rfl, hs⟩
  exact main.1

theorem decrypt_bytesP_eq (s : Grain128) (hs : Shape s) (cs pt : List Nat)
    (hlen : cs.length ≤ pt.length) :
    decrypt_bytesP s cs pt = some (decrypt_bytes s cs pt) := by
  have main := foldlM_eq_foldl
    (fun a : List Nat × Grain128 => a.1.length = pt.length ∧ Shape a.2)
    (fun a i => obind (nextByteP a.2) fun r =>
      obind (cs[i]?) fun ci =>
      obind (setP a.1 i (ci ^^^ r.1)) fun b => some (b, r.2))
    (fun a i => let r := nextByte a.2;
      (a.1.set i (cs.getD i 0 ^^^ r.1), r.2))
    (List.range cs.length)
    (fun a i hi ha => by
      have hbuf : a.1.length = pt.length := ha.1
      have hi2 : i < cs.length := List.mem_range.1 hi
      constructor
      · show obind (nextByteP a.2) (fun r =>
            obind (cs[i]?) fun ci =>
            obind (setP a.1 i (ci ^^^ r.1)) fun b => some (b, r.2))
          = some (a.1.set i (cs.getD i 0 ^^^ (nextByte a.2).1),
              (nextByte a.2).2)
        rw [nextByteP_eq a.2 ha.2, obind_some, getP_some cs i (by omega),
          obind_some]
        unfold setP
        rw [if_pos (by omega), obind_some]
      · show (a.1.set i (cs.getD i 0 ^^^ (nextByte a.2).1)).length = pt.length
          ∧ Shape (nextByte a.2).2
        exact ⟨by rw [List.length_set]; exact hbuf, nextByte_Shape a.2 ha.2⟩)
    (pt, s) ⟨rfl, hs⟩
  exact main.1

/-! ## Claim theorems -/

theorem getD_tail_concat (l : List Nat) (hl : l.length = 128) (i : Nat)
    (hi : i < 127) (v : Nat) :
    (l.tail ++ [v]).getD i 0 = l.getD (i + 1) 0 := by
  rw [List.getD_eq_getElem?_getD,
    List.getElem?_append_left (by rw [List.length_tail, hl]; omega)]
  rw [← List.drop_one, List.getElem?_drop]
  have h1 : 1 + i = i + 1 := by omega
  rw [h1, List.getD_eq_getElem?_getD]

/-- Claim C1: one step of the engine computes the output bit and both
    feedback bits from the pre-shift register contents by exactly the
    spec-4.3 tap formulas (`spec_outbit`, `spec_nbit`, `spec_lbit`), then
    shifts both registers left by one cell (cell `i` receives the old cell
    `i+1`), writes the NFSR feedback bit at `NFSR[keysize-1]` and the LFSR
    feedback bit at `LFSR[keysize-1]`, and returns the output bit.  The
    hypotheses state what the Rust types enforce: `keysize = 128` and
    128-cell registers. -/
theorem c1_step_function (s : Grain128) (hk : s.keysize = 128)
    (hN : s.NFSR.length = 128) (hL : s.LFSR.length = 128) :
    (keystream s).1 = spec_outbit (tapN s) (tapL s)
  ∧ (keystream s).2.NFSR = s.NFSR.tail ++ [spec_nbit (tapN s) (tapL s)]
  ∧ (keystream s).2.LFSR = s.LFSR.tail ++ [spec_lbit (tapL s)]
  ∧ (∀ i, i < s.keysize - 1 →
        (keystream s).2.NFSR.getD i 0 = s.NFSR.getD (i + 1) 0
      ∧ (keystream s).2.LFSR.getD i 0 = s.LFSR.getD (i + 1) 0)
  ∧ (keystream s).2.NFSR.getD (s.keysize - 1) 0 = spec_nbit (tapN s) (tapL s)
  ∧ (keystream s).2.LFSR.getD (s.keysize - 1) 0 = spec_lbit (tapL s) := by
  have hs : Shape s := ⟨hk, hN, hL⟩
  have h127 : s.keysize - 1 = 127 := by omega
  have htN : s.NFSR.tail.length = 127 := by rw [List.length_tail, hN]
  have htL : s.LFSR.tail.length = 127 := by rw [List.length_tail, hL]
  refine ⟨keystream_fst s, keystream_NFSR s hs, keystream_LFSR s hs,
    ?_, ?_, ?_⟩
  · intro i hi
    have hi127 : i < 127 := by omega
    constructor
    · rw [keystream_NFSR s hs, getD_tail_concat s.NFSR hN i hi127]
    · rw [keystream_LFSR s hs, getD_tail_concat s.LFSR hL i hi127]
  · rw [keystream_NFSR s hs, h127, getD_last_concat _ htN]
  · rw [keystream_LFSR s hs, h127, getD_last_concat _ htL]

/-- Witness for C1 at the concrete state produced by `keysetup` from the
    all-zero key. -/
theorem c1_step_function_witness :
    zeroState.keysize = 128 ∧ zeroState.NFSR.length = 128 ∧
    zeroState.LFSR.length = 128 ∧
    ((keystream zeroState).1
        = spec_outbit (tapN zeroState) (tapL zeroState)
    ∧ (keystream zeroState).2.NFSR = zeroState.NFSR.tail
        ++ [spec_nbit (tapN zeroState) (tapL zeroState)]
    ∧ (keystream zeroState).2.LFSR = zeroState.LFSR.tail
        ++ [spec_lbit (tapL zeroState)]
    ∧ (∀ i, i < zeroState.keysize - 1 →
          (keystream zeroState).2.NFSR.getD i 0
            = zeroState.NFSR.getD (i + 1) 0
        ∧ (keystream zeroState).2.LFSR.getD i 0
            = zeroState.LFSR.getD (i + 1) 0)
    ∧ (keystream zeroState).2.NFSR.getD (zeroState.keysize - 1) 0
        = spec_nbit (tapN zeroState) (tapL zeroState)
    ∧ (keystream zeroState).2.LFSR.getD (zeroState.keysize - 1) 0
        = spec_lbit (tapL zeroState)) :=
  ⟨by decide, by decide, by decide,
    c1_step_function zeroState (by decide) (by decide) (by decide)⟩

/-- Claim C2: the loading phase of initialization writes the registers by
    the little-endian-within-byte rule: for byte index `i < ivsize/8` and
    bit index `j < 8`, NFSR cell `i*8+j` receives key bit `(key[i] >> j) & 1`
    and LFSR cell `i*8+j` receives IV bit `(iv[i] >> j) & 1`; for
    `ivsize/8 ≤ i < keysize/8`, the NFSR cell receives the key bit and the
    LFSR cell the constant 1. -/
theorem c2_register_loading (s : Grain128) (iv : List Nat)
    (hkey : s.key.length = 16) (hks : s.keysize = 128)
    (hN : s.NFSR.length = 128) (hL : s.LFSR.length = 128)
    (hiv : iv.length = s.ivsize / 8) (hivs : s.ivsize / 8 ≤ 16) :
    (∀ i j, i < s.ivsize / 8 → j < 8 →
        (grainLoad s iv).NFSR.getD (i * 8 + j) 0
          = (s.key.getD i 0 >>> j) &&& 1
      ∧ (grainLoad s iv).LFSR.getD (i * 8 + j) 0
          = (iv.getD i 0 >>> j) &&& 1)
  ∧ (∀ i j, s.ivsize / 8 ≤ i → i < s.keysize / 8 → j < 8 →
        (grainLoad s iv).NFSR.getD (i * 8 + j) 0
          = (s.key.getD i 0 >>> j) &&& 1
      ∧ (grainLoad s iv).LFSR.getD (i * 8 + j) 0 = 1) := by
  have h := grainLoad_cell s iv hN hL hivs
  refine ⟨h.1, fun i j hge hlt hj => h.2 i j hge hlt ?_ hj⟩
  rw [hks] at hlt
  omega

/-- Witness for C2 at the all-zero key/IV configuration. -/
theorem c2_register_loading_witness :
    zeroState.key.length = 16 ∧ zeroState.keysize = 128 ∧
    zeroState.NFSR.length = 128 ∧ zeroState.LFSR.length = 128 ∧
    zeroIV.length = zeroState.ivsize / 8 ∧ zeroState.ivsize / 8 ≤ 16 ∧
    ((∀ i j, i < zeroState.ivsize / 8 → j < 8 →
        (grainLoad zeroState zeroIV).NFSR.getD (i * 8 + j) 0
          = (zeroState.key.getD i 0 >>> j) &&& 1
      ∧ (grainLoad zeroState zeroIV).LFSR.getD (i * 8 + j) 0
          = (zeroIV.getD i 0 >>> j) &&& 1)
  ∧ (∀ i j, zeroState.ivsize / 8 ≤ i → i < zeroState.keysize / 8 → j < 8 →
        (grainLoad zeroState zeroIV).NFSR.getD (i * 8 + j) 0
          = (zeroState.key.getD i 0 >>> j) &&& 1
      ∧ (grainLoad zeroState zeroIV).LFSR.getD (i * 8 + j) 0 = 1)) :=
  ⟨by decide, by decide, by decide, by decide, by decide, by decide,
    c2_register_loading zeroState zeroIV (by decide) (by decide) (by decide)
      (by decide) (by decide) (by decide)⟩

theorem foldl_range_iterate {α : Type _} (f : α → α) :
    ∀ (n : Nat) (x : α), (List.range n).foldl (fun t _ => f t) x = f^[n] x := by
  intro n
  induction n with
  | zero => intro x; rfl
  | succ n IH =>
      intro x
      rw [List.range_succ, List.foldl_append, IH x]
      simp only [List.foldl_cons, List.foldl_nil]
      rw [Function.iterate_succ_apply']

/-- Claim C3: a successful initialization produces exactly the state
    obtained by applying the spec-4.2 warm-up round (one Step Function
    call followed by XORing its output bit into both `NFSR[127]` and
    `LFSR[127]`) exactly 256 times to the freshly loaded registers.  No
    warm-up output bit appears in the result: `ivsetup` returns only this
    final state. -/
theorem c3_warmup_clocking (s : Grain128) (iv : List Nat) (t : Grain128)
    (h : ivsetup s iv = some t) :
    t = specWarmRound^[256] (grainLoad s iv) := by
  rw [ivsetup_eq h, foldl_range_iterate initClock 256 (grainLoad s iv)]
  have heq : initClock = specWarmRound := rfl
  rw [heq]

/-- Witness for C3: the all-zero key/IV initialization satisfies the
    warm-up characterization. -/
theorem c3_warmup_clocking_witness :
    ivsetup zeroState zeroIV
        = some ((List.range 256).foldl (fun t _ => initClock t)
            (grainLoad zeroState zeroIV))
  ∧ (List.range 256).foldl (fun t _ => initClock t)
        (grainLoad zeroState zeroIV)
      = specWarmRound^[256] (grainLoad zeroState zeroIV) :=
  ⟨rfl, c3_warmup_clocking zeroState zeroIV _ rfl⟩

/-- Claim C9: every reachable state (construction, optional initialization,
    any number of keystream/encrypt/decrypt calls) has bit-valued
    registers: every NFSR and LFSR cell is 0 or 1. -/
theorem c9_cells_are_bits (s : Grain128) (h : Reachable s) :
    (∀ c ∈ s.NFSR, c = 0 ∨ c = 1) ∧ (∀ c ∈ s.LFSR, c = 0 ∨ c = 1) := by
  have hb := reachable_BitState h
  exact ⟨hb.1, hb.2⟩

/-- Witness for C9 at the freshly constructed all-zero-key state. -/
theorem c9_cells_are_bits_witness :
    Reachable zeroState
  ∧ ((∀ c ∈ zeroState.NFSR, c = 0 ∨ c = 1)
      ∧ (∀ c ∈ zeroState.LFSR, c = 0 ∨ c = 1)) :=
  ⟨Reachable.setup zeroKey 128 96 zeroState rfl,
    c9_cells_are_bits zeroState (Reachable.setup zeroKey 128 96 zeroState rfl)⟩

/-- Claim C10: with `keysize = 128` (and the 128-cell registers the Rust
    array type guarantees), the bounds-checked versions of
    `keystream_bytes`, `encrypt_bytes` and `decrypt_bytes` — the same code
    with every slice access carrying its Rust bounds check, where an
    out-of-bounds access (Rust panic) yields `none` — succeed and agree
    with the unchecked functions, provided the output buffer of
    encrypt/decrypt is at least as long as the input: no register or
    buffer access is out of bounds and no panic is reachable. -/
theorem c10_no_out_of_bounds (s : Grain128) (hks : s.keysize = 128)
    (hN : s.NFSR.length = 128) (hL : s.LFSR.length = 128)
    (buf p ct cin pt : List Nat) (henc : p.length ≤ ct.length)
    (hdec : cin.length ≤ pt.length) :
    keystream_bytesP s buf = some (keystream_bytes s buf)
  ∧ encrypt_bytesP s p ct = some (encrypt_bytes s p ct)
  ∧ decrypt_bytesP s cin pt = some (decrypt_bytes s cin pt) :=
  ⟨keystream_bytesP_eq s ⟨hks, hN, hL⟩ buf,
   encrypt_bytesP_eq s ⟨hks, hN, hL⟩ p ct henc,
   decrypt_bytesP_eq s ⟨hks, hN, hL⟩ cin pt hdec⟩

/-- Witness for C10 on concrete small buffers. -/
theorem c10_no_out_of_bounds_witness :
    zeroState.keysize = 128 ∧ zeroState.NFSR.length = 128 ∧
    zeroState.LFSR.length = 128 ∧ ([(5 : Nat)].length ≤ [(0 : Nat)].length) ∧
    ([(7 : Nat)].length ≤ [(0 : Nat)].length) ∧
    (keystream_bytesP zeroState [0] = some (keystream_bytes zeroState [0])
  ∧ encrypt_bytesP zeroState [5] [0] = some (encrypt_bytes zeroState [5] [0])
  ∧ decrypt_bytesP zeroState [7] [0]
      = some (decrypt_bytes zeroState [7] [0])) :=
  ⟨by decide, by decide, by decide, by decide, by decide,
    c10_no_out_of_bounds zeroState (by decide) (by decide) (by decide)
      [0] [5] [0] [7] [0] (by decide) (by decide)⟩

/-- Counterexample for C6: construction with `keysize = 256` (≠ 128)
    succeeds — it does not fail with `UnsupportedConfiguration`; the code
    has no typed errors at all. -/
theorem c6_counterexample :
    (keysetup (List.replicate 16 0) 256 96).isSome = true := by decide

/-- Amended C6: construction panics (modelled `none`) exactly when the key
    is not 16 bytes, regardless of `keysize`, which is never validated;
    initialization on a 16-byte-key, `keysize = 128` state panics exactly
    when the IV is shorter than `ivsize/8` bytes or `ivsize/8 > 16` — an
    over-long IV is accepted, and no typed `InvalidKeyLength` /
    `UnsupportedConfiguration` / `InvalidIVLength` error values exist. -/
theorem c6_amended (key : List Nat) (ks ivs : Nat) (s : Grain128)
    (iv : List Nat) (hkey : s.key.length = 16) (hks : s.keysize = 128) :
    ((keysetup key ks ivs).isSome = true ↔ key.length = 16)
  ∧ ((ivsetup s iv).isSome = true
      ↔ (s.ivsize / 8 ≤ iv.length ∧ s.ivsize / 8 ≤ 16)) := by
  constructor
  · unfold keysetup
    by_cases h : key.length = 16
    · rw [if_pos h]
      simp [h]
    · rw [if_neg h]
      simp [h]
  · unfold ivsetup
    split_ifs with h
    · simp only [Option.isSome_some]
      obtain ⟨h1, h2, h3, h4, h5, h6⟩ := h
      exact ⟨fun _ => ⟨h2, by omega⟩, fun _ => trivial⟩
    · simp only [Option.isSome_none]
      constructor
      · intro hfalse
        simp at hfalse
      · intro hD
        exfalso
        apply h
        refine ⟨by omega, hD.1, by omega,
          Or.inr ⟨by omega, by omega⟩, by omega, by omega⟩

/-- Witness for the amended C6 at concrete inputs. -/
theorem c6_amended_witness :
    zeroState.key.length = 16 ∧ zeroState.keysize = 128 ∧
    (((keysetup [1, 2, 3] 128 96).isSome = true ↔ [1, 2, 3].length = 16)
  ∧ ((ivsetup zeroState [0, 0]).isSome = true
      ↔ (zeroState.ivsize / 8 ≤ [0, 0].length
          ∧ zeroState.ivsize / 8 ≤ 16))) :=
  ⟨by decide, by decide,
    c6_amended [1, 2, 3] 128 96 zeroState [0, 0] (by decide) (by decide)⟩

/-- Counterexample for C7: a constructed but never initialized engine does
    not fail with `NotInitialized` — requesting one keystream byte
    succeeds and yields the byte 0 (computed from the zero-filled
    registers). -/
theorem c7_counterexample :
    (keysetup (List.replicate 16 0) 128 96).map
        (fun s => (keystream_bytes s [5]).1) = some [0] := by
  have hz : keystream zeroState = (0, zeroState) :=
    keystream_zeroReg zeroState rfl rfl
  have hnb := nextByte_zero zeroState hz
  have hsetup : keysetup (List.replicate 16 0) 128 96 = some zeroState := rfl
  rw [hsetup]
  show some ((keystream_bytes zeroState [5]).1) = some [0]
  rw [keystream_bytes_eq, ksRec_zeroByte zeroState hnb]
  rfl

/-- Amended C7: the code has no initialization tracking and no
    `NotInitialized` error; invoked on a constructed-but-uninitialized
    state of the supported configuration (`keysize = 128`, where the shift
    loop stays in bounds), the operations do not fail: they run on the
    zero-filled registers, which are a fixed point producing an all-zero
    keystream, so `keystream_bytes` returns all-zero bytes and
    encrypt/decrypt return their input unchanged.  (With other keysizes
    construction still succeeds, but the first step panics in the shift
    loop, so no output is produced there either way — never a
    `NotInitialized` error.) -/
theorem c7_amended (key : List Nat) (ks ivs : Nat) (s : Grain128)
    (h : keysetup key ks ivs = some s) (hks : ks = 128)
    (buf p cbuf : List Nat) :
    (keystream_bytes s buf).1 = List.replicate buf.length 0
  ∧ (cbuf.length = p.length → (encrypt_bytes s p cbuf).1 = p)
  ∧ (p.length = cbuf.length → (decrypt_bytes s cbuf p).1 = cbuf) := by
  obtain ⟨-, rfl⟩ := keysetup_eq h
  have hz : keystream
      { key := key, keysize := ks, ivsize := ivs,
        LFSR := List.replicate 128 0, NFSR := List.replicate 128 0 }
      = (0,
         { key := key, keysize := ks, ivsize := ivs,
           LFSR := List.replicate 128 0, NFSR := List.replicate 128 0 }) :=
    keystream_zeroReg _ rfl rfl
  have hnb := nextByte_zero _ hz
  refine ⟨?_, ?_, ?_⟩
  · rw [keystream_bytes_eq, ksRec_zeroByte _ hnb]
  · intro hlen
    rw [encrypt_bytes_eq _ _ _ hlen, encRec_zeroByte _ hnb]
  · intro hlen
    rw [decrypt_bytes_eq _ _ _ hlen, encRec_zeroByte _ hnb]

/-- Witness for the amended C7 at concrete inputs. -/
theorem c7_amended_witness :
    keysetup zeroKey 128 96 = some zeroState
  ∧ (128 : Nat) = 128
  ∧ ((keystream_bytes zeroState [9, 9]).1 = List.replicate [9, 9].length 0
  ∧ (([0, 0] : List Nat).length = ([3, 4] : List Nat).length →
      (encrypt_bytes zeroState [3, 4] [0, 0]).1 = [3, 4])
  ∧ (([3, 4] : List Nat).length = ([0, 0] : List Nat).length →
      (decrypt_bytes zeroState [0, 0] [3, 4]).1 = [0, 0])) :=
  ⟨rfl, rfl, c7_amended zeroKey 128 96 zeroState rfl rfl [9, 9] [3, 4] [0, 0]⟩

/-- Claim C8: encrypting a plaintext on an engine constructed and
    initialized from a key/IV pair and then decrypting the resulting
    ciphertext on a second, independently constructed and initialized
    engine with the same key/IV (in this functional model both engines are
    the identical state `t`, since construction and initialization are
    deterministic) recovers the plaintext exactly; ciphertext and
    recovered plaintext have the plaintext's length.  The caller-supplied
    output buffers have the plaintext's length, as in the Rust API. -/
theorem c8_encrypt_decrypt_roundtrip (key iv p ct0 pt0 : List Nat)
    (ks ivs : Nat) (s t : Grain128) (h1 : keysetup key ks ivs = some s)
    (h2 : ivsetup s iv = some t) (hc : ct0.length = p.length)
    (hp : pt0.length = p.length) :
    (decrypt_bytes t (encrypt_bytes t p ct0).1 pt0).1 = p
  ∧ (encrypt_bytes t p ct0).1.length = p.length
  ∧ (decrypt_bytes t (encrypt_bytes t p ct0).1 pt0).1.length = p.length := by
  have he : encrypt_bytes t p ct0 = encRec t p := encrypt_bytes_eq t p ct0 hc
  have hlen : (encRec t p).1.length = p.length := encRec_length p t
  have hd : decrypt_bytes t (encRec t p).1 pt0 = encRec t (encRec t p).1 :=
    decrypt_bytes_eq t _ pt0 (by rw [hlen]; exact hp)
  refine ⟨?_, ?_, ?_⟩
  · rw [he, hd, encRec_invol]
  · rw [he, hlen]
  · rw [he, hd, encRec_invol]

/-- Witness for C8 at the all-zero key/IV and a 3-byte plaintext. -/
theorem c8_encrypt_decrypt_roundtrip_witness :
    keysetup zeroKey 128 96 = some zeroState
  ∧ ivsetup zeroState zeroIV
      = some ((List.range 256).foldl (fun t _ => initClock t)
          (grainLoad zeroState zeroIV))
  ∧ (([0, 0, 0] : List Nat).length = ([1, 2, 3] : List Nat).length)
  ∧ (([0, 0, 0] : List Nat).length = ([1, 2, 3] : List Nat).length)
  ∧ ((decrypt_bytes
        ((List.range 256).foldl (fun t _ => initClock t)
          (grainLoad zeroState zeroIV))
        (encrypt_bytes
          ((List.range 256).foldl (fun t _ => initClock t)
            (grainLoad zeroState zeroIV)) [1, 2, 3] [0, 0, 0]).1
        [0, 0, 0]).1 = [1, 2, 3]
  ∧ (encrypt_bytes
        ((List.range 256).foldl (fun t _ => initClock t)
          (grainLoad zeroState zeroIV)) [1, 2, 3] [0, 0, 0]).1.length
      = ([1, 2, 3] : List Nat).length
  ∧ (decrypt_bytes
        ((List.range 256).foldl (fun t _ => initClock t)
          (grainLoad zeroState zeroIV))
        (encrypt_bytes
          ((List.range 256).foldl (fun t _ => initClock t)
            (grainLoad zeroState zeroIV)) [1, 2, 3] [0, 0, 0]).1
        [0, 0, 0]).1.length = ([1, 2, 3] : List Nat).length) :=
  ⟨rfl, rfl, rfl, rfl,
    c8_encrypt_decrypt_roundtrip zeroKey zeroIV [1, 2, 3] [0, 0, 0] [0, 0, 0]
      128 96 zeroState _ rfl rfl rfl rfl⟩

theorem streamOut_slice (s : Grain128) (n i k : Nat) (hi : i < n)
    (hk : k < 8) :
    (streamOut s (8 * n)).getD (8 * i + k) 0
      = (streamOut (streamState s (8 * i)) 8).getD k 0 := by
  have e1 : 8 * n = 8 * i + (8 + (8 * n - 8 * i - 8)) := by omega
  rw [e1, streamOut_add (8 * i) _ s, List.getD_eq_getElem?_getD,
    List.getElem?_append_right (by rw [streamOut_length]; omega),
    streamOut_length]
  have e2 : 8 * i + k - 8 * i = k := by omega
  rw [e2, streamOut_add 8 _ (streamState s (8 * i)),
    List.getElem?_append_left (by rw [streamOut_length]; omega),
    List.getD_eq_getElem?_getD]

/-- Claim C5: `keystream_bytes` fills each requested byte by invoking the
    step function exactly 8 times (the final state after `n` bytes is the
    state after `8*n` step calls), the output has one byte per buffer
    cell, and bit position `k` of output byte `i` (its `testBit k`) is
    exactly the `(8*i+k)`-th generated output bit — the first-generated
    bit is the least significant.  The registers are assumed bit-valued,
    which holds for every reachable state. -/
theorem c5_byte_packing (s : Grain128) (hbN : BitList s.NFSR)
    (hbL : BitList s.LFSR) (ks : List Nat) :
    (keystream_bytes s ks).2 = streamState s (8 * ks.length)
  ∧ (keystream_bytes s ks).1.length = ks.length
  ∧ ∀ i k, i < ks.length → k < 8 →
      (((keystream_bytes s ks).1.getD i 0).testBit k = true
        ↔ (streamOut s (8 * ks.length)).getD (8 * i + k) 0 = 1) := by
  rw [keystream_bytes_eq]
  refine ⟨ksRec_snd _ s, ksRec_length _ s, ?_⟩
  intro i k hi hk
  have hbits : ∀ j, IsBit ((streamOut (streamState s (8 * i)) 8).getD j 0) :=
    fun j => IsBit.getD
      (streamOut_BitList 8 _ (streamState_BitState (8 * i) s ⟨hbN, hbL⟩)) j
  rw [ksRec_getD ks.length i hi s, nextByte_char (streamState s (8 * i))]
  rw [streamOut_slice s ks.length i k hi hk]
  rw [orFold_testBit
    (fun j => (streamOut (streamState s (8 * i)) 8).getD j 0) hbits 8 0 0 k]
  constructor
  · rintro (habs | ⟨-, -, h⟩)
    · rw [Nat.zero_testBit] at habs
      cases habs
    · exact h
  · intro h
    exact Or.inr ⟨by omega, by omega, h⟩

/-- Witness for C5 at the freshly constructed all-zero-key state and a
    2-byte request. -/
theorem c5_byte_packing_witness :
    BitList zeroState.NFSR ∧ BitList zeroState.LFSR
  ∧ ((keystream_bytes zeroState [0, 0]).2
        = streamState zeroState (8 * ([0, 0] : List Nat).length)
    ∧ (keystream_bytes zeroState [0, 0]).1.length
        = ([0, 0] : List Nat).length
    ∧ ∀ i k, i < ([0, 0] : List Nat).length → k < 8 →
        (((keystream_bytes zeroState [0, 0]).1.getD i 0).testBit k = true
          ↔ (streamOut zeroState (8 * ([0, 0] : List Nat).length)).getD
              (8 * i + k) 0 = 1)) :=
  ⟨by decide, by decide,
    c5_byte_packing zeroState (by decide) (by decide) [0, 0]⟩

/-- Claim C4: constructing with the all-zero 16-byte key (keysize 128,
    ivsize 96), initializing with the all-zero 12-byte IV, and requesting
    16 keystream bytes yields exactly
    `f0 9b 7b f7 d7 f6 b5 c2 de 2f fc 73 ac 21 39 7f`. -/
theorem c4_known_answer :
    ((keysetup (List.replicate 16 0) 128 96).bind
        (fun s => ivsetup s (List.replicate 12 0))).map
      (fun t => (keystream_bytes t (List.replicate 16 0)).1)
    = some [0xf0, 0x9b, 0x7b, 0xf7, 0xd7, 0xf6, 0xb5, 0xc2,
            0xde, 0x2f, 0xfc, 0x73, 0xac, 0x21, 0x39, 0x7f] := by
  have hpipe : (keysetup (List.replicate 16 0) 128 96).bind
      (fun s => ivsetup s (List.replicate 12 0))
      = some ((List.range 256).foldl (fun t _ => initClock t)
          (grainLoad zeroState zeroIV)) := rfl
  rw [hpipe]
  show some ((keystream_bytes
      ((List.range 256).foldl (fun t _ => initClock t)
        (grainLoad zeroState zeroIV)) (List.replicate 16 0)).1) = _
  refine congrArg some ?_
  rw [keystream_bytes_eq]
  have hlen : (List.replicate 16 (0 : Nat)).length = 16 := by decide
  rw [hlen]
  have hW : SimR (grainLoad zeroState zeroIV)
      (((2 ^ 32 - 1) <<< 96 : Nat), (0 : Nat)) := by
    show Shape (grainLoad zeroState zeroIV)
      ∧ BitState (grainLoad zeroState zeroIV)
      ∧ natOfBits (grainLoad zeroState zeroIV).LFSR = (2 ^ 32 - 1) <<< 96
      ∧ natOfBits (grainLoad zeroState zeroIV).NFSR = 0
    refine ⟨by decide, by decide, by decide, by decide⟩
  have hT := warm_sim hW
  rw [ksRec_sim 16 hT]
  decide
